import Mathlib

/-!
Verification of the vroom (Trexity edition) routing core against its
natural-language specification.  The definitions below are a shallow
embedding of the C++ sources:

* `src/structures/vroom/eval.h`            — Eval and its saturating algebra;
* `src/structures/vroom/raw_route.{h,cpp}` — RawRoute load bookkeeping;
* `tw_route.cpp`                           — TWRoute range validity prefix;
* `src/utils/budget_repair.cpp`            — post-solve budget repair.

Machine integers are modelled as `Int` with explicit two-complement
wrapping where the C++ casts wrap; `Amount` (a fixed-arity vector of
signed integers) is modelled as `List Int` with component-wise
operations.
-/

namespace Vroom

/-! ## Eval (src/structures/vroom/eval.h)

The component types `Cost`, `Duration`, `Distance` come from
`structures/typedefs.h`, which is not part of the sources at hand.
Modelled from the spec: the spec describes Amount entries and the Eval
components as fixed-width signed integers, so the components are
modelled as 64-bit two-complement integers: `Int` values constrained to
`[i64Min, i64Max]`, with `wrap64` for the casts that wrap. -/

def i64Max : Int := 9223372036854775807

def i64Min : Int := -9223372036854775808

/-- Two-complement wrap of an arbitrary integer into `[i64Min, i64Max]`,
the meaning of a C++ `static_cast` to a 64-bit signed type. -/
def wrap64 (x : Int) : Int :=
  (x + 9223372036854775808) % 18446744073709551616 - 9223372036854775808

/-- The exact integer result clamped to the representable range: the
behaviour the spec ascribes to the saturating helpers. -/
def clamp64 (x : Int) : Int :=
  if x < i64Min then i64Min else if i64Max < x then i64Max else x

/-- `Eval::saturating_add` (eval.h lines 24-38): clamp to the numeric
limit when adding `rhs` would overflow, otherwise plain addition. -/
def saturating_add (lhs rhs : Int) : Int :=
  if 0 < rhs ∧ i64Max - rhs < lhs then i64Max
  else if rhs < 0 ∧ lhs < i64Min - rhs then i64Min
  else lhs + rhs

/-- `Eval::saturating_sub` (eval.h lines 40-43):
`saturating_add(lhs, static_cast<T>(-rhs))`; the cast wraps when
`rhs` is the minimum value. -/
def saturating_sub (lhs rhs : Int) : Int :=
  saturating_add lhs (wrap64 (-rhs))

/-- `Eval::saturating_neg` (eval.h lines 45-54): swaps the two extreme
values, plain negation otherwise. -/
def saturating_neg (value : Int) : Int :=
  if value = i64Min then i64Max
  else if value = i64Max then i64Min
  else -value

/-! ## Amount (structures/vroom/amount.h, modelled)

`amount.h` is not among the sources at hand.  Modelled from the spec:
an Amount is a vector of signed integers of fixed capacity-vector arity
supporting `+`, `-`, component-wise `<=` and component-wise `max`;
represented as `List Int`, with all amounts of one problem sharing the
same length. -/

abbrev Amount := List Int

/-- The zero amount of arity `d` (`input.zero_amount()` / `_zero`). -/
def aZero (d : Nat) : Amount := List.replicate d 0

/-- Component-wise amount addition. -/
def aAdd (a b : Amount) : Amount := List.zipWith (· + ·) a b

/-- Component-wise amount subtraction. -/
def aSub (a b : Amount) : Amount := List.zipWith (· - ·) a b

/-- Component-wise `operator<=` on amounts. -/
def aLe (a b : Amount) : Bool :=
  (List.zipWith (fun x y : Int => decide (x ≤ y)) a b).all (fun c => c)

/-- Component-wise maximum of two amounts. -/
def aMax (a b : Amount) : Amount := List.zipWith max a b

/-- Component `i` of an amount (0 when out of range). -/
def aIdx (a : Amount) (i : Nat) : Int := a.getD i 0

/-! ## Jobs and the per-vehicle input view (RawRoute side)

`job.h` and the Input loader are only partly among the sources; the job
fields below are the ones RawRoute reads.  Modelled from the spec where
indicated: a shipment pickup carries the shipment amount as its
`pickup` with zero `delivery`, and symmetrically for the delivery half
(spec section 3, Job: the pickup/delivery constructors take a single
amount). -/

inductive JobType where
  | single
  | pickup
  | delivery
deriving DecidableEq, Repr

/-- The slice of a `Job` that RawRoute and TWRoute read. -/
structure RJob where
  type : JobType
  pickup : Amount
  delivery : Amount
  locIndex : Nat
  exclusiveTags : List Nat
  pinned : Bool
deriving DecidableEq, Repr

instance : Inhabited RJob := ⟨⟨JobType.single, [], [], 0, [], false⟩⟩

/-- `PinnedBoundaryRequirement` (input.h lines 35-41). -/
structure PinnedReq where
  jobRank : Option Nat
  pickupRank : Option Nat
  deliveryRank : Option Nat
deriving DecidableEq, Repr

/-- The per-vehicle view of the Input that RawRoute reads: the job
table, the pinned first/last requirements for this vehicle
(`input.pinned_first_for_vehicle(v_rank)` etc.), and the vehicle data
used by the first-leg distance bound.  `maxFirstLegDistance = none`
stands for the `DEFAULT_MAX_DISTANCE` sentinel (typedefs.h is not among
the sources). -/
structure RRInput where
  jobs : List RJob
  pinnedFirst : Option PinnedReq
  pinnedLast : Option PinnedReq
  hasStart : Bool
  stepsEmpty : Bool
  startIndex : Nat
  maxFirstLegDistance : Option Int
  distance : Nat → Nat → Int

/-- `input.jobs[rk]`. -/
def jobAt (inp : RRInput) (rk : Nat) : RJob := inp.jobs.getD rk default

/-! ## RawRoute state (raw_route.h, part_001)

All derived vectors are state fields, exactly as in the class; they are
recomputed by `updateAmounts`.  The exclusive-tag counters are state
that `update_amounts` does not touch. -/

structure RawState where
  route : List Nat
  capacity : Amount
  fwdPickups : List Amount
  fwdDeliveries : List Amount
  bwdDeliveries : List Amount
  bwdPickups : List Amount
  pdLoads : List Amount
  nbPickups : List Nat
  nbDeliveries : List Nat
  currentLoads : List Amount
  fwdPeaks : List Amount
  bwdPeaks : List Amount
  deliveryMargin : Amount
  pickupMargin : Amount
  exclusiveTagCounts : List Nat
  exclusiveTagLimits : List Nat
deriving DecidableEq, Repr

/-- Running sum of single-job pickups over a rank sequence: the
`current_pickups` accumulator of the forward loop of update_amounts
(raw_route.cpp lines 63-86). -/
def spSum (inp : RRInput) (d : Nat) (ranks : List Nat) : Amount :=
  ranks.foldl
    (fun acc rk =>
      if (jobAt inp rk).type = JobType.single then aAdd acc (jobAt inp rk).pickup
      else acc)
    (aZero d)

/-- Running sum of single-job deliveries over a rank sequence
(`current_deliveries` of both loops of update_amounts). -/
def sdSum (inp : RRInput) (d : Nat) (ranks : List Nat) : Amount :=
  ranks.foldl
    (fun acc rk =>
      if (jobAt inp rk).type = JobType.single then aAdd acc (jobAt inp rk).delivery
      else acc)
    (aZero d)

/-- Running shipment load over a rank sequence: the `current_pd_load`
accumulator of update_amounts (pickup adds its amount, delivery
subtracts its amount, single jobs leave it unchanged). -/
def pdSum (inp : RRInput) (d : Nat) (ranks : List Nat) : Amount :=
  ranks.foldl
    (fun acc rk =>
      match (jobAt inp rk).type with
      | JobType.pickup => aAdd acc (jobAt inp rk).pickup
      | JobType.delivery => aSub acc (jobAt inp rk).delivery
      | JobType.single => acc)
    (aZero d)

/-- `_current_loads[s]` of a (non-empty) route `r` with `n = r.length`:
the backward loop of update_amounts (raw_route.cpp lines 89-110) sets
step `s ∈ [1, n]` to `fwd_pickups[s-1] + pd_loads[s-1] + (single
deliveries pending after rank s-1)`, step `0` to the total single
deliveries, and step `n+1` to `fwd_pickups.back()` (line 92). The
prefix-sum formula below is that loop evaluated at one index. -/
def loadAt (inp : RRInput) (d : Nat) (r : List Nat) (s : Nat) : Amount :=
  if s = r.length + 1 then spSum inp d r
  else aAdd (aAdd (spSum inp d (r.take s)) (pdSum inp d (r.take s)))
    (sdSum inp d (r.drop s))

/-- Forward running component-wise maximum: `_fwd_peaks` computed from
`_current_loads` (raw_route.cpp lines 112-120), seeded with the first
entry. -/
def prefixMax (l : List Amount) : List Amount :=
  match l with
  | [] => []
  | x :: xs => List.scanl aMax x xs

/-- `RawRoute::update_amounts` (raw_route.cpp lines 32-145).  On an
empty route the function resizes and zero-fills loads and peaks and
returns early (line 54), leaving both margins untouched: the
empty-route margin assignment at lines 133-135 sits after that return
and is unreachable. -/
def updateAmounts (inp : RRInput) (st : RawState) : RawState :=
  let d := st.capacity.length
  let n := st.route.length
  if st.route.isEmpty then
    { st with
      fwdPickups := [], fwdDeliveries := [], bwdDeliveries := [],
      bwdPickups := [], pdLoads := [], nbPickups := [], nbDeliveries := [],
      currentLoads := List.replicate 2 (aZero d),
      fwdPeaks := List.replicate 2 (aZero d),
      bwdPeaks := List.replicate 2 (aZero d) }
  else
    let loads := (List.range (n + 2)).map (loadAt inp d st.route)
    { st with
      fwdPickups := (List.range n).map fun i => spSum inp d (st.route.take (i + 1)),
      fwdDeliveries := (List.range n).map fun i => sdSum inp d (st.route.take (i + 1)),
      bwdDeliveries := (List.range n).map fun i => sdSum inp d (st.route.drop (i + 1)),
      bwdPickups := (List.range n).map fun i => spSum inp d (st.route.drop (i + 1)),
      pdLoads := (List.range n).map fun i => pdSum inp d (st.route.take (i + 1)),
      nbPickups := (List.range n).map fun i =>
        (st.route.take (i + 1)).countP fun rk => (jobAt inp rk).type = JobType.pickup,
      nbDeliveries := (List.range n).map fun i =>
        (st.route.take (i + 1)).countP fun rk => (jobAt inp rk).type = JobType.delivery,
      currentLoads := loads,
      fwdPeaks := prefixMax loads,
      bwdPeaks := (prefixMax loads.reverse).reverse,
      deliveryMargin := aSub st.capacity (loads.getD 0 (aZero d)),
      pickupMargin := aSub st.capacity (spSum inp d st.route) }

/-- `RawRoute::set_route` (raw_route.cpp lines 27-30). -/
def setRoute (inp : RRInput) (st : RawState) (r : List Nat) : RawState :=
  updateAmounts inp { st with route := r }

/-- `RawRoute::add` (raw_route.cpp lines 381-384). -/
def addOp (inp : RRInput) (st : RawState) (jobRank rank : Nat) : RawState :=
  updateAmounts inp { st with route := st.route.insertIdx rank jobRank }

/-- `RawRoute::remove` (raw_route.cpp lines 386-391): erase the ranks
in `[rank, rank + count)` and recompute. -/
def removeOp (inp : RRInput) (st : RawState) (rank count : Nat) : RawState :=
  updateAmounts inp
    { st with route := st.route.take rank ++ st.route.drop (rank + count) }

/-- `RawRoute::replace` (raw_route.cpp lines 393-405): replace the
range `[firstRank, lastRank)` by the given job ranks and recompute. -/
def replaceOp (inp : RRInput) (st : RawState) (jobs : List Nat)
    (firstRank lastRank : Nat) : RawState :=
  updateAmounts inp
    { st with
      route := st.route.take firstRank ++ jobs ++ st.route.drop lastRank }

/-- `RawRoute::max_load` (`_fwd_peaks.back()`, raw_route.h). -/
def maxLoad (st : RawState) : Amount := st.fwdPeaks.getLastD []

/-- A freshly constructed RawRoute (raw_route.cpp lines 14-25): empty
route, peaks of size two filled with zero, both margins equal to the
vehicle capacity.  The exclusive-tag vectors are taken as parameters
(their initialization is not among the sources). -/
def mkState (cap : Amount) (tagCounts tagLimits : List Nat) : RawState :=
  { route := [], capacity := cap,
    fwdPickups := [], fwdDeliveries := [], bwdDeliveries := [],
    bwdPickups := [], pdLoads := [], nbPickups := [], nbDeliveries := [],
    currentLoads := [],
    fwdPeaks := List.replicate 2 (aZero cap.length),
    bwdPeaks := List.replicate 2 (aZero cap.length),
    deliveryMargin := cap, pickupMargin := cap,
    exclusiveTagCounts := tagCounts, exclusiveTagLimits := tagLimits }

/-! ## Pinned-anchor gates

The pinned first/last guards of
`RawRoute::is_valid_addition_for_capacity_inclusion`
(raw_route.cpp lines 214-312) and of the range variant of
`RawRoute::is_valid_addition_for_tw` (raw_route.h lines 345-446) are
textually identical, so they are shared here.  `jobs` is the inserted
range, `fr`/`lr` the replaced range bounds. -/

/-- The pinned-first guard: `true` when the edit passes. -/
def pinnedFirstGate (inp : RRInput) (route : List Nat) (jobs : List Nat)
    (fr lr : Nat) : Bool :=
  match inp.pinnedFirst with
  | none => true
  | some req =>
    match req.jobRank with
    | some jrq =>
      if fr = 0 then
        if jobs.length > 0 then decide (jobs.getD 0 0 = jrq)
        else if lr < route.length then decide (route.getD lr 0 = jrq)
        else false
      else true
    | none =>
      match req.pickupRank, req.deliveryRank with
      | some p, some dl =>
        (if fr = 0 then
          let n0 : Option Nat :=
            if jobs.length ≥ 1 then some (jobs.getD 0 0)
            else if lr < route.length then some (route.getD lr 0) else none
          let n1 : Option Nat :=
            if jobs.length ≥ 2 then some (jobs.getD 1 0)
            else if jobs.length = 1 then
              (if lr < route.length then some (route.getD lr 0) else none)
            else if lr + 1 < route.length then some (route.getD (lr + 1) 0)
            else none
          decide (n0 = some p) && decide (n1 = some dl)
        else true) &&
        (if fr = 1 ∧ jobs.length > 0 then
          ¬ (route.length ≥ 2 ∧ route.getD 0 0 = p ∧ route.getD 1 0 = dl)
        else true)
      | _, _ => true

/-- The pinned-last guard: `true` when the edit passes. -/
def pinnedLastGate (inp : RRInput) (route : List Nat) (jobs : List Nat)
    (fr lr : Nat) : Bool :=
  match inp.pinnedLast with
  | none => true
  | some req =>
    match req.jobRank with
    | some jrq =>
      if lr = route.length then
        let newLast : Option Nat :=
          if jobs.length > 0 then some (jobs.getD (jobs.length - 1) 0)
          else if fr > 0 then some (route.getD (fr - 1) 0) else none
        decide (newLast = some jrq)
      else true
    | none =>
      match req.pickupRank, req.deliveryRank with
      | some p, some dl =>
        (if lr = route.length then
          if jobs.length < 2 then false
          else decide (jobs.getD (jobs.length - 2) 0 = p) &&
            decide (jobs.getD (jobs.length - 1) 0 = dl)
        else true) &&
        (if fr = (if route.length ≥ 1 then route.length - 1 else 0) ∧
            jobs.length > 0 then
          ¬ (route.length ≥ 2 ∧ route.getD (route.length - 2) 0 = p ∧
            route.getD (route.length - 1) 0 = dl)
        else true)
      | _, _ => true

/-! ## RawRoute range predicates -/

/-- The capacity walk of is_valid_addition_for_capacity_inclusion
(raw_route.cpp lines 327-341): check the running load against capacity
before the first inserted job and after each inserted job, stopping at
the first violation. -/
def capWalk (inp : RRInput) (cap : Amount) (delivery : Amount) :
    List Nat → Bool
  | [] => aLe delivery cap
  | rk :: rest =>
    aLe delivery cap &&
      capWalk inp cap
        (aSub (aAdd delivery (jobAt inp rk).pickup) (jobAt inp rk).delivery)
        rest

/-- The seed of the capacity walk (raw_route.cpp lines 314-325): the
argument `delivery` plus the current load at `firstRank` minus the
deliveries of the replaced range. -/
def inclusionStart (inp : RRInput) (st : RawState) (delivery : Amount)
    (firstRank lastRank : Nat) : Amount :=
  let d := st.capacity.length
  let initLoad := if st.route.isEmpty then aZero d
    else st.currentLoads.getD 0 (aZero d)
  let firstDeliveries := if firstRank = 0 then initLoad
    else st.bwdDeliveries.getD (firstRank - 1) (aZero d)
  let lastDeliveries := if lastRank = 0 then initLoad
    else st.bwdDeliveries.getD (lastRank - 1) (aZero d)
  let replacedDeliveries := aSub firstDeliveries lastDeliveries
  aSub
    (aAdd delivery
      (if st.route.isEmpty then aZero d else st.currentLoads.getD firstRank (aZero d)))
    replacedDeliveries

/-- `RawRoute::is_valid_addition_for_capacity_inclusion`
(raw_route.cpp lines 203-342): pinned first/last gates, then the
simulated running load of the inserted range. -/
def isValidAdditionForCapacityInclusion (inp : RRInput) (st : RawState)
    (delivery : Amount) (jobs : List Nat) (firstRank lastRank : Nat) : Bool :=
  if ¬ pinnedFirstGate inp st.route jobs firstRank lastRank then false
  else if ¬ pinnedLastGate inp st.route jobs firstRank lastRank then false
  else capWalk inp st.capacity (inclusionStart inp st delivery firstRank lastRank) jobs

/-- Tag count of tag `t` over a rank sequence (occurrences of `t` in
the jobs' exclusive-tag lists). -/
def routeTagCount (inp : RRInput) (ranks : List Nat) (t : Nat) : Nat :=
  (ranks.map fun rk => (jobAt inp rk).exclusiveTags.count t).sum

/-- The tag ids carried by the jobs of the inserted range, in range
order (`inserted_tag_ids`, raw_route.h part_001 lines 271-275). -/
def insertedTagIds (inp : RRInput) (jobs : List Nat) : List Nat :=
  jobs.foldr (fun rk acc => (jobAt inp rk).exclusiveTags ++ acc) []

/-- The per-unique-tag check of the range variant of
is_valid_addition_for_tw (part_001 lines 283-325): the inserted count
may not exceed the limit on its own, and the resulting count
`current - removed_in_range + added_in_range` (computed as int) may not
exceed the limit. -/
def tagCheckOne (inp : RRInput) (st : RawState) (jobs : List Nat)
    (firstRank lastRank : Nat) (tid : Nat) : Bool :=
  let c := (insertedTagIds inp jobs).count tid
  if c > st.exclusiveTagLimits.getD tid 0 then false
  else
    let stop := min st.route.length lastRank
    let lo := min firstRank stop
    let seg := (st.route.drop lo).take (stop - lo)
    let removed := routeTagCount inp seg tid
    decide ((st.exclusiveTagCounts.getD tid 0 : Int) - removed + c ≤
      (st.exclusiveTagLimits.getD tid 0 : Int))

/-- The exclusive-tag section of the range variant (part_001 lines
268-327): skipped when the counts vector is empty or the inserted range
carries no tags; otherwise every unique inserted tag id must pass
`tagCheckOne`.  (The C++ sorts the inserted tag ids and walks them
group by group; the boolean outcome is the per-unique-tag check, so the
groups are taken through `dedup` and `count`.) -/
def exclusiveTagsOk (inp : RRInput) (st : RawState) (jobs : List Nat)
    (firstRank lastRank : Nat) : Bool :=
  if st.exclusiveTagCounts.isEmpty then true
  else if (insertedTagIds inp jobs).isEmpty then true
  else (insertedTagIds inp jobs).dedup.all
    (tagCheckOne inp st jobs firstRank lastRank)

/-- The first-leg distance bound on head insertions (part_001 lines
329-343). -/
def firstLegOk (inp : RRInput) (jobs : List Nat) (firstRank : Nat) : Bool :=
  if firstRank = 0 ∧ jobs.length > 0 then
    if inp.hasStart ∧ inp.stepsEmpty ∧ inp.maxFirstLegDistance.isSome then
      decide (inp.distance inp.startIndex (jobAt inp (jobs.getD 0 0)).locIndex ≤
        inp.maxFirstLegDistance.getD 0)
    else true
  else true

/-- The range variant of `RawRoute::is_valid_addition_for_tw`
(raw_route.h, part_001 lines 257-449): exclusive-tag resulting-count
check, first-leg distance bound, then the pinned first/last gates. -/
def rawIsValidAdditionForTwRange (inp : RRInput) (st : RawState)
    (jobs : List Nat) (firstRank lastRank : Nat) : Bool :=
  if ¬ exclusiveTagsOk inp st jobs firstRank lastRank then false
  else if ¬ firstLegOk inp jobs firstRank then false
  else
    pinnedFirstGate inp st.route jobs firstRank lastRank &&
      pinnedLastGate inp st.route jobs firstRank lastRank

/-! ## Scalar views of the running sums

Component `i` of the amount-valued running sums, used to reason about
update_amounts pointwise. -/

/-- Component `i` of the single-pickup contribution of one job. -/
def spC (inp : RRInput) (i rk : Nat) : Int :=
  if (jobAt inp rk).type = JobType.single then aIdx (jobAt inp rk).pickup i
  else 0

/-- Component `i` of the single-delivery contribution of one job. -/
def sdC (inp : RRInput) (i rk : Nat) : Int :=
  if (jobAt inp rk).type = JobType.single then aIdx (jobAt inp rk).delivery i
  else 0

/-- Component `i` of the shipment-load contribution of one job. -/
def pdC (inp : RRInput) (i rk : Nat) : Int :=
  match (jobAt inp rk).type with
  | JobType.pickup => aIdx (jobAt inp rk).pickup i
  | JobType.delivery => -(aIdx (jobAt inp rk).delivery i)
  | JobType.single => 0

/-- Component `i` of the single-pickup sum. -/
def spS (inp : RRInput) (i : Nat) (ranks : List Nat) : Int :=
  (ranks.map (spC inp i)).sum

/-- Component `i` of the single-delivery sum. -/
def sdS (inp : RRInput) (i : Nat) (ranks : List Nat) : Int :=
  (ranks.map (sdC inp i)).sum

/-- Component `i` of the shipment-load sum. -/
def pdS (inp : RRInput) (i : Nat) (ranks : List Nat) : Int :=
  (ranks.map (pdC inp i)).sum

/-- Well-formed job table for arity `d`: all amounts have length `d`,
and each shipment half carries a zero amount on its other side
(modelled from the spec, section 3: the pickup/delivery constructors
take a single amount). -/
def WFJobs (inp : RRInput) (d : Nat) : Prop :=
  ∀ j ∈ inp.jobs, j.pickup.length = d ∧ j.delivery.length = d ∧
    (j.type = JobType.pickup → j.delivery = aZero d) ∧
    (j.type = JobType.delivery → j.pickup = aZero d)

/-- All ranks of a sequence are valid rows of the job table. -/
def ranksOk (inp : RRInput) (ranks : List Nat) : Prop :=
  ∀ rk ∈ ranks, rk < inp.jobs.length

/-- The running load accumulated by the capacity walk after a prefix of
the inserted jobs. -/
def walkAcc (inp : RRInput) (a : Amount) (l : List Nat) : Amount :=
  l.foldl
    (fun acc rk => aSub (aAdd acc (jobAt inp rk).pickup) (jobAt inp rk).delivery)
    a

/-- The route invariants of the spec (section 3 and section 8): the
derived vectors agree with update_amounts, the job table is
well-formed, the route's ranks are valid, and every current load fits
the capacity. -/
def RouteInvariants (inp : RRInput) (st : RawState) : Prop :=
  st = updateAmounts inp st ∧
  WFJobs inp st.capacity.length ∧
  ranksOk inp st.route ∧
  ∀ s, s < st.currentLoads.length →
    aLe (st.currentLoads.getD s (aZero st.capacity.length)) st.capacity = true

instance (inp : RRInput) (st : RawState) : Decidable (RouteInvariants inp st) := by
  unfold RouteInvariants WFJobs ranksOk
  infer_instance

/-- A one-dimensional two-job example input: two single jobs with
deliveries 9 and 5, no pinned requirements, no first-leg bound. -/
def exInput1 : RRInput :=
  { jobs := [⟨JobType.single, [0], [9], 0, [], false⟩,
             ⟨JobType.single, [0], [5], 0, [], false⟩],
    pinnedFirst := none, pinnedLast := none,
    hasStart := false, stepsEmpty := true, startIndex := 0,
    maxFirstLegDistance := none, distance := fun _ _ => 0 }

/-- A consistent route state over `exInput1`: capacity `[10]`, route
holding the delivery-9 job. -/
def exState1 : RawState := setRoute exInput1 (mkState [10] [] []) [0]

instance (inp : RRInput) (l : List Nat) : Decidable (ranksOk inp l) := by
  unfold ranksOk
  infer_instance

/-- A tag example input: two jobs carrying exclusive tag 0 and one
untagged job. -/
def exInputTags : RRInput :=
  { jobs := [⟨JobType.single, [0], [1], 0, [0], false⟩,
             ⟨JobType.single, [0], [1], 0, [0], false⟩,
             ⟨JobType.single, [0], [1], 0, [], false⟩,
             ⟨JobType.single, [0], [1], 0, [0], false⟩],
    pinnedFirst := none, pinnedLast := none,
    hasStart := false, stepsEmpty := true, startIndex := 0,
    maxFirstLegDistance := none, distance := fun _ _ => 0 }

/-- A state over `exInputTags` whose route holds both tag-0 jobs, with
tag counts [2] reflecting the route and limit [1]. -/
def exStateTags : RawState := setRoute exInputTags (mkState [10] [2] [1]) [0, 1]

/-- A state over `exInputTags` whose route holds one tag-0 job, with
tag counts [1] and limit [1]. -/
def exStateTags1 : RawState := setRoute exInputTags (mkState [10] [1] [1]) [0]

/-- An Eval value `{cost, duration, distance}`. -/
structure Eval where
  cost : Int
  duration : Int
  distance : Int
deriving DecidableEq, Repr

/-- `operator<` on Eval (eval.h lines 93-96): lexicographic comparison of
the `(cost, duration, distance)` triples via `std::tie`. -/
def evalLt (lhs rhs : Eval) : Bool :=
  if lhs.cost ≠ rhs.cost then decide (lhs.cost < rhs.cost)
  else if lhs.duration ≠ rhs.duration then decide (lhs.duration < rhs.duration)
  else decide (lhs.distance < rhs.distance)

/-- `operator<=` on Eval (eval.h lines 98-100): compares the `cost`
components only. -/
def evalLe (lhs rhs : Eval) : Bool :=
  decide (lhs.cost ≤ rhs.cost)

/-- The ordering the spec claims for `operator<=`: lexicographically
smaller or equal. -/
def evalLexLe (lhs rhs : Eval) : Bool :=
  evalLt lhs rhs || decide (lhs = rhs)

/-! ## TWRoute: the range validity predicate (tw_route.cpp, part_002)

The embedding covers `TWRoute::is_valid_addition_for_tw` (part_002
lines 1143-1615) up to and including its categorical pinned rejections;
the TW/break propagation suffix that follows them (the break-range
computation, load checks, the job/break walk and the soft-timing delay
accounting, lines 1303-1614) is abstracted as the `TWRest` parameter:
the claims settled against this function are decided by the guards that
precede the suffix, and the theorems hold for every instantiation of
it. -/

/-- The slice of the Input read by the TW predicate prefix. -/
structure TWInput where
  jobs : List RJob
  pinnedFirst : Option PinnedReq
  pinnedLast : Option PinnedReq
  pinnedSoftTiming : Bool
  pinnedViolationBudget : Nat
  duration : Nat → Nat → Nat

/-- The TWRoute state fields read by the predicate prefix. -/
structure TWState where
  route : List Nat
  earliest : List Nat
  latest : List Nat
  actionTime : List Nat
  vStart : Nat
  vEnd : Nat
  hasStart : Bool
  hasEnd : Bool
  startIndex : Nat
  endIndex : Nat
  hasBreakMaxLoad : Bool
deriving DecidableEq, Repr

/-- `input.jobs[rk]` as read by TWRoute. -/
def twJobAt (inp : TWInput) (rk : Nat) : RJob := inp.jobs.getD rk default

/-- `PreviousInfo` (tw_route.h is not among the sources; fields as used
by the code: earliest end of the previous step, remaining travel, and
the previous location when known). -/
structure PreviousInfo where
  earliest : Nat
  travel : Nat
  locationIndex : Option Nat
deriving DecidableEq, Repr

/-- `NextInfo`: latest service start of the next step and the travel
to it. -/
structure NextInfo where
  latest : Nat
  travel : Nat
deriving DecidableEq, Repr

/-- `TWRoute::previous_info` (part_002 lines 476-496). -/
def previousInfo (inp : TWInput) (st : TWState) (jobRank rank : Nat) :
    PreviousInfo :=
  let j := twJobAt inp jobRank
  if rank > 0 then
    let pj := twJobAt inp (st.route.getD (rank - 1) 0)
    { earliest := st.earliest.getD (rank - 1) 0 + st.actionTime.getD (rank - 1) 0,
      travel := inp.duration pj.locIndex j.locIndex,
      locationIndex := some pj.locIndex }
  else if st.hasStart then
    { earliest := st.vStart, travel := inp.duration st.startIndex j.locIndex,
      locationIndex := some st.startIndex }
  else
    { earliest := st.vStart, travel := 0, locationIndex := none }

/-- `TWRoute::next_info` (part_002 lines 498-515). -/
def nextInfo (inp : TWInput) (st : TWState) (jobRank rank : Nat) : NextInfo :=
  let j := twJobAt inp jobRank
  if rank = st.route.length then
    if st.hasEnd then
      { latest := st.vEnd, travel := inp.duration j.locIndex st.endIndex }
    else { latest := st.vEnd, travel := 0 }
  else
    { latest := st.latest.getD rank 0,
      travel := inp.duration j.locIndex
        (twJobAt inp (st.route.getD rank 0)).locIndex }

/-- Outcome of the initialization section of the TW range predicate
(part_002 lines 1181-1293): an early `false`, the early `true` of
emptying the whole route (line 1290), or the `(current, next)` pair the
walk starts from. -/
inductive TWInit where
  | reject
  | acceptAll
  | proceed (cur : PreviousInfo) (next : NextInfo)
deriving DecidableEq

/-- The anchor guards of the insertion branch (part_002 lines
1188-1247).  In the pinned-first shipment case with `first_rank = 1`
the code returns false on both sides of its inner test (lines
1212-1219), so the guard fails whenever the route starts with the
pinned pickup. -/
def twAnchorsOk (inp : TWInput) (st : TWState) (jobs : List Nat)
    (fr lr : Nat) : Bool :=
  (match inp.pinnedFirst with
   | none => true
   | some req =>
     match req.jobRank with
     | some jrq => if fr = 0 then decide (jobs.getD 0 0 = jrq) else true
     | none =>
       match req.pickupRank, req.deliveryRank with
       | some p, some dl =>
         (if fr = 0 then
           if jobs.length < 2 then false
           else decide (jobs.getD 0 0 = p) && decide (jobs.getD 1 0 = dl)
         else true) &&
         (if fr = 1 then
           if st.route ≠ [] ∧ st.route.getD 0 0 = p then false else true
         else true)
       | _, _ => true) &&
  (match inp.pinnedLast with
   | none => true
   | some req =>
     match req.jobRank with
     | some jrq =>
       if lr = st.route.length then
         decide (jobs.getD (jobs.length - 1) 0 = jrq)
       else true
     | none =>
       match req.pickupRank, req.deliveryRank with
       | some p, some dl =>
         if lr = st.route.length then
           if jobs.length < 2 then false
           else decide (jobs.getD (jobs.length - 2) 0 = p) &&
             decide (jobs.getD (jobs.length - 1) 0 = dl)
         else true
       | _, _ => true)

/-- The initialization section of the TW range predicate (part_002
lines 1181-1293): anchor guards and `(current, next)` computation for
an insertion, or the removal branch with its defensive index checks
and the `return true` when the whole route is emptied. -/
def twInitSection (inp : TWInput) (st : TWState) (jobs : List Nat)
    (fr lr : Nat) : TWInit :=
  if jobs.length > 0 then
    if ¬ twAnchorsOk inp st jobs fr lr then TWInit.reject
    else TWInit.proceed (previousInfo inp st (jobs.getD 0 0) fr)
      (nextInfo inp st (jobs.getD (jobs.length - 1) 0) lr)
  else
    if fr > 0 then
      if fr - 1 ≥ st.earliest.length ∨ fr - 1 ≥ st.actionTime.length then
        TWInit.reject
      else
        let prevJob := twJobAt inp (st.route.getD (fr - 1) 0)
        let cur : PreviousInfo :=
          { earliest := st.earliest.getD (fr - 1) 0 + st.actionTime.getD (fr - 1) 0,
            travel := 0, locationIndex := some prevJob.locIndex }
        if lr < st.route.length then
          if lr ≥ st.latest.length then TWInit.reject
          else TWInit.proceed cur
            { latest := st.latest.getD lr 0,
              travel := inp.duration prevJob.locIndex
                (twJobAt inp (st.route.getD lr 0)).locIndex }
        else if st.hasEnd then
          TWInit.proceed cur
            { latest := st.vEnd,
              travel := inp.duration prevJob.locIndex st.endIndex }
        else TWInit.proceed cur { latest := st.vEnd, travel := 0 }
    else
      if lr < st.route.length then
        if lr ≥ st.latest.length then TWInit.reject
        else if st.hasStart then
          TWInit.proceed
            { earliest := st.vStart, travel := 0, locationIndex := some st.startIndex }
            { latest := st.latest.getD lr 0,
              travel := inp.duration st.startIndex
                (twJobAt inp (st.route.getD lr 0)).locIndex }
        else
          TWInit.proceed { earliest := st.vStart, travel := 0, locationIndex := none }
            { latest := st.latest.getD lr 0, travel := 0 }
      else TWInit.acceptAll

/-- The abstracted TW/break walk suffix (part_002 lines 1303-1614):
a function of the `delivery` argument, the computed `(current, next)`
pair and the effective `check_max_load` flag. -/
def TWRest : Type := Amount → PreviousInfo → NextInfo → Bool → Bool

/-- `TWRoute::is_valid_addition_for_tw`, range variant (part_002 lines
1143-1615): defensive bounds on malformed ranks, the hard no-prepend
rule under zero-budget soft pinning, the initialization section, the
categorical rejection of insertions right before a pinned step under
zero-budget soft pinning, and then the abstracted walk. -/
def twIsValidAdditionForTw (rest : TWRest) (inp : TWInput) (st : TWState)
    (delivery : Amount) (jobs : List Nat) (firstRank lastRank : Nat)
    (checkMaxLoad : Bool) : Bool :=
  if firstRank > st.route.length ∨ lastRank > st.route.length ∨
      firstRank > lastRank then false
  else if inp.pinnedSoftTiming ∧ inp.pinnedViolationBudget = 0 ∧
      firstRank = 0 ∧ st.route ≠ [] ∧
      st.route.any (fun jr => (twJobAt inp jr).pinned) then false
  else
    match twInitSection inp st jobs firstRank lastRank with
    | TWInit.reject => false
    | TWInit.acceptAll => true
    | TWInit.proceed cur next =>
      if inp.pinnedSoftTiming ∧ inp.pinnedViolationBudget = 0 ∧
          lastRank < st.route.length ∧
          (twJobAt inp (st.route.getD lastRank 0)).pinned then false
      else rest delivery cur next (st.hasBreakMaxLoad && checkMaxLoad)

namespace TW

/-- A TW example input: one job, pinned, soft pinned timing with a zero
violation budget. -/
def exTWInput : Vroom.TWInput :=
  { jobs := [{ type := JobType.single, pickup := [1], delivery := [0],
               locIndex := 0, exclusiveTags := [], pinned := true }],
    pinnedFirst := none, pinnedLast := none,
    pinnedSoftTiming := true, pinnedViolationBudget := 0,
    duration := fun _ _ => 1 }

/-- A TW example state: the route holds the single pinned job. -/
def exTWState : Vroom.TWState :=
  { route := [0], earliest := [0], latest := [10], actionTime := [2],
    vStart := 0, vEnd := 100, hasStart := false, hasEnd := false,
    startIndex := 0, endIndex := 0, hasBreakMaxLoad := false }

end TW

/-! ## Budget repair (budget_repair.cpp)

The embedding translates `repair_budget` (budget_repair.cpp lines
40-418).  The externals it calls whose definitions are not part of the
sources — `route_eval_for_vehicle` together with the vehicle fixed and
action costs folded into `compute_total_internal_cost` (lines 14-25),
the densify candidate scan whose TW feasibility machinery they feed
(lines 160-249), and `format_route` — are abstracted as the `BRExt`
parameter; the theorems hold for every instantiation of it.  The
route, summary and solution record fields are exactly those the
function reads and writes. -/

/-- A job as read by `repair_budget`: id, type, budget and pinned
flag. -/
structure BRJob where
  id : Nat
  type : JobType
  budget : Int
  pinned : Bool
deriving DecidableEq, Repr

instance : Inhabited BRJob := ⟨⟨0, JobType.single, 0, false⟩⟩

/-- Step types of a solution route step. -/
inductive BRStepType where
  | start
  | jobStep
  | breakStep
  | endStep
deriving DecidableEq, Repr

/-- A solution route step: its type, the optional job type and the
step id. -/
structure BRStep where
  stepType : BRStepType
  jobType : Option JobType
  id : Nat
deriving DecidableEq, Repr

/-- A solution route with the totals `repair_budget` aggregates
(budget_repair.cpp lines 404-415). -/
structure BRRoute where
  vehicle : Nat
  steps : List BRStep
  cost : Int
  delivery : Amount
  pickup : Amount
  setup : Int
  service : Int
  priority : Int
  duration : Int
  distance : Int
  waitingTime : Int
  violations : Int
deriving DecidableEq, Repr

/-- The solution summary fields `repair_budget` rebuilds. -/
structure BRSummary where
  routes : Nat
  unassigned : Nat
  cost : Int
  delivery : Amount
  pickup : Amount
  setup : Int
  service : Int
  priority : Int
  duration : Int
  distance : Int
  waitingTime : Int
  violations : Int
  computingTimes : Nat
deriving DecidableEq, Repr

/-- A vehicle as read by `repair_budget`: only its id is used for the
lookup at lines 59-65. -/
structure BRVehicle where
  id : Nat
deriving DecidableEq, Repr

/-- A solution: routes, unassigned jobs and summary. -/
structure BRSolution where
  routes : List BRRoute
  unassigned : List BRJob
  summary : BRSummary
deriving DecidableEq, Repr

/-- The slice of the Input read by `repair_budget`: the jobs vector,
the vehicles vector, the amount size and the id-to-rank maps. -/
structure BRInput where
  jobs : List BRJob
  vehicles : List BRVehicle
  amountSize : Nat
  jobIdToRank : Nat → Nat
  pickupIdToRank : Nat → Nat
  deliveryIdToRank : Nat → Nat

/-- The externals of `repair_budget` whose definitions are not among
the sources: `compute_total_internal_cost` (it wraps the declared-only
`route_eval_for_vehicle` plus fixed and action costs), the densify
candidate scan producing `(best_gain, best_new_ranks, best_added)`
(budget_repair.cpp lines 160-249; it only feeds the commit at lines
251-266), and `format_route`.  `best_added = some (a, none)` encodes
the single-job sentinel pair of line 245. -/
structure BRExt where
  totalCost : Nat → List Nat → Int
  densifyScan : Nat → List Nat → Int × List Nat × Option (Nat × Option Nat)
  formatRoute : Nat → List Nat → BRRoute

/-- `input.jobs[r]`. -/
def brJobAt (inp : BRInput) (r : Nat) : BRJob := inp.jobs.getD r default

/-- `utils::job_budget` (helpers.h lines 520-526): shipments count
their budget once, on the pickup. -/
def jobBudget (j : BRJob) : Int :=
  if j.type = JobType.delivery then 0 else j.budget

/-- `compute_route_budget_sum_from_ranks` (budget_repair.cpp lines
27-38). -/
def budgetSumFromRanks (inp : BRInput) (ranks : List Nat) : Int :=
  ranks.foldl
    (fun s r =>
      let j := brJobAt inp r
      if j.type = JobType.delivery then s else s + jobBudget j) 0

/-- The vehicle-by-id lookup (budget_repair.cpp lines 57-65): first
index whose id matches, if any. -/
def findVehicle (inp : BRInput) (vid : Nat) : Option Nat :=
  inp.vehicles.findIdx? (fun v => v.id == vid)

/-- The job rank of a JOB step (budget_repair.cpp lines 91-98). -/
def rankOfStep (inp : BRInput) (st : BRStep) : Nat :=
  if st.jobType = some JobType.pickup then inp.pickupIdToRank st.id
  else if st.jobType = some JobType.delivery then inp.deliveryIdToRank st.id
  else inp.jobIdToRank st.id

/-- The job ranks of the JOB steps of a route (budget_repair.cpp lines
85-100). -/
def ranksOfSteps (inp : BRInput) (steps : List BRStep) : List Nat :=
  steps.filterMap
    (fun st =>
      if st.stepType = BRStepType.jobStep then some (rankOfStep inp st)
      else none)

/-- The jobs of the JOB steps of a route, as pushed to
`extra_unassigned` when a route is dropped (budget_repair.cpp lines
68-80 and 363-375). -/
def jobsOfSteps (inp : BRInput) (steps : List BRStep) : List BRJob :=
  steps.filterMap
    (fun st =>
      if st.stepType = BRStepType.jobStep then
        some (brJobAt inp (rankOfStep inp st))
      else none)

/-- The `has_any_budget` scan (budget_repair.cpp lines 105-112). -/
def hasAnyBudget (inp : BRInput) (ranks : List Nat) : Bool :=
  ranks.any
    (fun r =>
      let j := brJobAt inp r
      decide (j.type ≠ JobType.delivery) && decide (0 < jobBudget j))

/-- The `pos_by_rank` map (budget_repair.cpp lines 286-289): positions
are inserted in ascending order with overwrite, so a lookup returns
the last position holding the rank, if any. -/
def posOfRank (ranks : List Nat) (r : Nat) : Option Nat :=
  (List.range ranks.length).foldl
    (fun acc p => if ranks.getD p 0 = r then some p else acc) none

/-- The pair-removal candidate construction (budget_repair.cpp lines
317-324): all positions except `f` and `s`. -/
def eraseTwo (ranks : List Nat) (f s : Nat) : List Nat :=
  (List.range ranks.length).filterMap
    (fun q => if q = f ∨ q = s then none else some (ranks.getD q 0))

/-- The running best of the removal scan: best delta, the candidate
rank vector, and the removed pair — `some (jr, none)` for a single
job, `some (jr, some dr)` for a pickup/delivery couple, mirroring the
`Index::max` sentinel of budget_repair.cpp lines 306 and 331. -/
structure RemovalBest where
  delta : Int
  newRanks : List Nat
  removedPair : Option (Nat × Option Nat)
deriving DecidableEq, Repr

/-- One candidate position of the removal scan (budget_repair.cpp
lines 291-334): pinned jobs are skipped, a single job is a candidate
alone, a pickup only together with its matching delivery at rank
`jr + 1` when present and itself non-pinned; a plain delivery is never
a candidate on its own. -/
def removalCand (inp : BRInput) (ext : BRExt) (vIdx : Nat)
    (ranks : List Nat) (curGap : Int) (best : RemovalBest) (p : Nat) :
    RemovalBest :=
  let jr := ranks.getD p 0
  let j := brJobAt inp jr
  if j.pinned then best
  else if j.type = JobType.single then
    let cand := ranks.eraseIdx p
    let delta :=
      (budgetSumFromRanks inp cand - ext.totalCost vIdx cand) - curGap
    if best.delta < delta then ⟨delta, cand, some (jr, none)⟩ else best
  else if j.type = JobType.pickup then
    if posOfRank ranks (jr + 1) = none ∨ (brJobAt inp (jr + 1)).pinned then
      best
    else
      let dp := (posOfRank ranks (jr + 1)).getD 0
      let cand := eraseTwo ranks (min p dp) (max p dp)
      let delta :=
        (budgetSumFromRanks inp cand - ext.totalCost vIdx cand) - curGap
      if best.delta < delta then ⟨delta, cand, some (jr, some (jr + 1))⟩
      else best
  else best

/-- The full removal scan over all positions (budget_repair.cpp lines
281-334). -/
def removalScan (inp : BRInput) (ext : BRExt) (vIdx : Nat)
    (ranks : List Nat) (curGap : Int) : RemovalBest :=
  (List.range ranks.length).foldl
    (removalCand inp ext vIdx ranks curGap) ⟨0, [], none⟩

/-- The greedy removal loop (budget_repair.cpp lines 275-347),
fuel-indexed: each pass either stops (empty route, budget satisfied,
or no improving removal) or commits the best removal's ranks and
appends the removed rank(s); the `Index::max` sentinel of the pair's
second member is encoded as `none`.  Every committed pass strictly shrinks
the rank vector, so fuel `ranks.length + 1` never runs out. -/
def removalLoop (inp : BRInput) (ext : BRExt) (vIdx : Nat) :
    Nat → List Nat → List Nat → List Nat × List Nat
  | 0, ranks, removed => (ranks, removed)
  | Nat.succ fuel, ranks, removed =>
    if ranks.isEmpty then (ranks, removed)
    else
      let c := ext.totalCost vIdx ranks
      let b := budgetSumFromRanks inp ranks
      if c ≤ b then (ranks, removed)
      else
        let best := removalScan inp ext vIdx ranks (b - c)
        if best.delta ≤ 0 ∨ best.removedPair = none then (ranks, removed)
        else
          let pr := best.removedPair.getD (0, none)
          removalLoop inp ext vIdx fuel best.newRanks
            (removed ++ pr.1 :: pr.2.elim [] (fun d => [d]))

/-- The removal phase entry point: the loop started on the route's
ranks with an empty removed list. -/
def removalPhase (inp : BRInput) (ext : BRExt) (vIdx : Nat)
    (ranks : List Nat) : List Nat × List Nat :=
  removalLoop inp ext vIdx (ranks.length + 1) ranks []

/-- The accumulators threaded through the per-route loop of
`repair_budget`: `kept_routes`, `extra_unassigned` and
`remove_from_unassigned_ids`. -/
structure BRAcc where
  kept : List BRRoute
  extra : List BRJob
  removeIds : List Nat
deriving DecidableEq, Repr

/-- The body of the per-route loop of `repair_budget`
(budget_repair.cpp lines 55-378): unknown vehicle unassigns all route
tasks; a route with no budget-bearing task, or whose budget covers its
cost, is kept as is; otherwise a committing densify scan keeps the
rebuilt route and marks the inserted ids, else the removal phase
either keeps the rebuilt shrunken route (unassigning the removed
jobs) or drops the route entirely. -/
def processRoute (inp : BRInput) (ext : BRExt) (acc : BRAcc)
    (route : BRRoute) : BRAcc :=
  match findVehicle inp route.vehicle with
  | none => { acc with extra := acc.extra ++ jobsOfSteps inp route.steps }
  | some vIdx =>
    let ranks := ranksOfSteps inp route.steps
    let curCost := ext.totalCost vIdx ranks
    let curBudget := budgetSumFromRanks inp ranks
    if ¬ hasAnyBudget inp ranks then
      { acc with kept := acc.kept ++ [route] }
    else if curCost ≤ curBudget then
      { acc with kept := acc.kept ++ [route] }
    else
      let scan := ext.densifyScan vIdx ranks
      if 0 < scan.1 ∧ ¬ scan.2.1.isEmpty then
        { kept := acc.kept ++ [ext.formatRoute vIdx scan.2.1],
          extra := acc.extra,
          removeIds :=
            match scan.2.2 with
            | none => acc.removeIds
            | some (a, b) =>
              acc.removeIds ++ (brJobAt inp a).id ::
                (match b with
                 | none => []
                 | some d => [(brJobAt inp d).id]) }
      else
        let res := removalPhase inp ext vIdx ranks
        let finalCost := ext.totalCost vIdx res.1
        let finalBudget := budgetSumFromRanks inp res.1
        if ¬ res.1.isEmpty ∧ finalCost ≤ finalBudget then
          { kept := acc.kept ++ [ext.formatRoute vIdx res.1],
            extra := acc.extra ++ res.2.map (brJobAt inp),
            removeIds := acc.removeIds }
        else
          { acc with extra := acc.extra ++ jobsOfSteps inp route.steps }

/-- The freshly constructed summary of budget_repair.cpp lines
400-403: zero totals, the given route and unassigned counts, and
zero amounts of the input's amount size. -/
def mkSummary (d nr nu : Nat) : BRSummary :=
  { routes := nr, unassigned := nu, cost := 0, delivery := aZero d,
    pickup := aZero d, setup := 0, service := 0, priority := 0,
    duration := 0, distance := 0, waitingTime := 0, violations := 0,
    computingTimes := 0 }

/-- One step of the summary aggregation loop (budget_repair.cpp lines
404-415). -/
def addRouteToSummary (s : BRSummary) (r : BRRoute) : BRSummary :=
  { s with
    cost := s.cost + r.cost
    delivery := aAdd s.delivery r.delivery
    pickup := aAdd s.pickup r.pickup
    setup := s.setup + r.setup
    service := s.service + r.service
    priority := s.priority + r.priority
    duration := s.duration + r.duration
    distance := s.distance + r.distance
    waitingTime := s.waitingTime + r.waitingTime
    violations := s.violations + r.violations }

/-- `repair_budget` (budget_repair.cpp lines 40-418): the per-route
loop, then the publish block guarded by
`kept_routes.size() != sol.routes.size()` (line 380): merge the
unassigned sets, install the kept routes, rebuild the summary from
them and restore the computing-times stamp; when the guard fails the
solution is returned unchanged. -/
def repair_budget (inp : BRInput) (ext : BRExt) (sol : BRSolution) :
    BRSolution :=
  let acc := sol.routes.foldl (processRoute inp ext) ⟨[], [], []⟩
  if acc.kept.length ≠ sol.routes.length then
    let merged :=
      sol.unassigned.filter (fun j => !(acc.removeIds.contains j.id)) ++
        acc.extra
    let agg :=
      acc.kept.foldl addRouteToSummary
        (mkSummary inp.amountSize acc.kept.length merged.length)
    { routes := acc.kept, unassigned := merged,
      summary := { agg with computingTimes := sol.summary.computingTimes } }
  else sol

/-- The removed-ranks list decomposes into blocks: a non-pinned single
job alone, or a non-pinned pickup immediately followed by its matching
delivery rank `r + 1`, itself non-pinned. -/
def removedOk (inp : BRInput) : List Nat → Bool
  | [] => true
  | r :: rest =>
    let j := brJobAt inp r
    if j.pinned then false
    else if j.type = JobType.single then removedOk inp rest
    else if j.type = JobType.pickup then
      match rest with
      | [] => false
      | d :: rest2 =>
        decide (d = r + 1) && !(brJobAt inp d).pinned && removedOk inp rest2
    else false

/-- A removed pair as selected by the scan is sound: its first member
is non-pinned, and it is either a lone single job or a pickup coupled
with its non-pinned delivery at the next rank. -/
def GoodPair (inp : BRInput) (f : Nat) (s : Option Nat) : Prop :=
  (brJobAt inp f).pinned = false ∧
  ((s = none ∧ (brJobAt inp f).type = JobType.single) ∨
   (s = some (f + 1) ∧ (brJobAt inp f).type = JobType.pickup ∧
     (brJobAt inp (f + 1)).pinned = false))

/-- A removal-scan best is sound whenever its pair is set. -/
def BestOk (inp : BRInput) (best : RemovalBest) : Prop :=
  ∀ f s, best.removedPair = some (f, s) → GoodPair inp f s

namespace BR

/-- A budget-repair example input: one single job with id 1 and budget
5, one vehicle with id 7. -/
def exBRInput : BRInput :=
  { jobs := [⟨1, JobType.single, 5, false⟩],
    vehicles := [⟨7⟩], amountSize := 1,
    jobIdToRank := fun _ => 0, pickupIdToRank := fun _ => 0,
    deliveryIdToRank := fun _ => 0 }

/-- The example solution route: vehicle 7 serving job id 1. -/
def exBRRoute : BRRoute :=
  { vehicle := 7, steps := [⟨BRStepType.jobStep, none, 1⟩], cost := 3,
    delivery := [0], pickup := [0], setup := 0, service := 0,
    priority := 0, duration := 0, distance := 0, waitingTime := 0,
    violations := 0 }

/-- Example externals: a route cost of 10 (above the budget of 5), a
densify scan that reports an improving insertion with positive gain,
and a `format_route` whose output visibly differs from the original
route. -/
def exBRExt : BRExt :=
  { totalCost := fun _ _ => 10,
    densifyScan := fun _ r => (1, 0 :: r, some (0, none)),
    formatRoute := fun v r =>
      { vehicle := v, steps := [], cost := Int.ofNat r.length,
        delivery := [0], pickup := [0], setup := 0, service := 0,
        priority := 0, duration := 0, distance := 0, waitingTime := 0,
        violations := 0 } }

/-- The example solution: the single route above and no unassigned
jobs. -/
def exBRSol : BRSolution :=
  { routes := [exBRRoute], unassigned := [], summary := mkSummary 1 1 0 }

end BR

theorem length_aAdd (a b : Amount) : (aAdd a b).length = min a.length b.length := by
  simp [aAdd]

theorem length_aSub (a b : Amount) : (aSub a b).length = min a.length b.length := by
  simp [aSub]

theorem length_aZero (d : Nat) : (aZero d).length = d := by
  simp [aZero]

theorem aIdx_aZero (d i : Nat) : aIdx (aZero d) i = 0 := by
  simp only [aZero, aIdx]
  rcases Nat.lt_or_ge i d with h | h
  · rw [List.getD_eq_getElem _ _ (by simpa using h)]
    simp
  · rw [List.getD_eq_default _ _ (by simpa using h)]

theorem aIdx_aAdd (a b : Amount) (h : a.length = b.length) (i : Nat) :
    aIdx (aAdd a b) i = aIdx a i + aIdx b i := by
  induction a generalizing b i with
  | nil => cases b <;> simp_all [aAdd, aIdx]
  | cons x xs ih =>
    cases b with
    | nil => simp at h
    | cons y ys =>
      cases i with
      | zero => simp [aAdd, aIdx]
      | succ j =>
        simp only [aAdd, List.zipWith_cons_cons, aIdx, List.getD_cons_succ]
        exact ih ys (by simpa using h) j

theorem aIdx_aSub (a b : Amount) (h : a.length = b.length) (i : Nat) :
    aIdx (aSub a b) i = aIdx a i - aIdx b i := by
  induction a generalizing b i with
  | nil => cases b <;> simp_all [aSub, aIdx]
  | cons x xs ih =>
    cases b with
    | nil => simp at h
    | cons y ys =>
      cases i with
      | zero => simp [aSub, aIdx]
      | succ j =>
        simp only [aSub, List.zipWith_cons_cons, aIdx, List.getD_cons_succ]
        exact ih ys (by simpa using h) j

theorem aLe_iff (a b : Amount) (h : a.length = b.length) :
    aLe a b = true ↔ ∀ i, i < a.length → aIdx a i ≤ aIdx b i := by
  induction a generalizing b with
  | nil => cases b <;> simp_all [aLe]
  | cons x xs ih =>
    cases b with
    | nil => simp at h
    | cons y ys =>
      simp only [aLe, List.zipWith_cons_cons, List.all_cons] at *
      rw [Bool.and_eq_true]
      constructor
      · rintro ⟨h1, h2⟩ i hi
        cases i with
        | zero => simpa [aIdx] using h1
        | succ j =>
          have := (ih ys (by simpa using h)).mp h2 j (by simpa using hi)
          simpa [aIdx] using this
      · intro hall
        refine ⟨by simpa [aIdx] using hall 0 (by simp), ?_⟩
        refine (ih ys (by simpa using h)).mpr fun j hj => ?_
        simpa [aIdx] using hall (j + 1) (by simpa using hj)

/-- Two amounts of equal length with equal components are equal. -/
theorem amount_ext (a b : Amount) (h : a.length = b.length)
    (hc : ∀ i, aIdx a i = aIdx b i) : a = b := by
  induction a generalizing b with
  | nil => cases b <;> simp_all
  | cons x xs ih =>
    cases b with
    | nil => simp at h
    | cons y ys =>
      have h0 := hc 0
      simp only [aIdx, List.getD_cons_zero] at h0
      subst h0
      refine congrArg _ (ih ys (by simpa using h) fun i => ?_)
      simpa [aIdx] using hc (i + 1)

theorem wf_jobAt {inp : RRInput} {d : Nat} (hwf : WFJobs inp d) {rk : Nat}
    (hrk : rk < inp.jobs.length) :
    (jobAt inp rk).pickup.length = d ∧ (jobAt inp rk).delivery.length = d ∧
      ((jobAt inp rk).type = JobType.pickup →
        (jobAt inp rk).delivery = aZero d) ∧
      ((jobAt inp rk).type = JobType.delivery →
        (jobAt inp rk).pickup = aZero d) := by
  have hmem : jobAt inp rk ∈ inp.jobs := by
    simp only [jobAt, List.getD_eq_getElem _ _ hrk]
    exact List.getElem_mem hrk
  exact hwf _ hmem

theorem spSum_aux {inp : RRInput} {d : Nat} (hwf : WFJobs inp d)
    (ranks : List Nat) (hr : ranksOk inp ranks) (acc : Amount)
    (hacc : acc.length = d) :
    (ranks.foldl
        (fun acc rk =>
          if (jobAt inp rk).type = JobType.single then
            aAdd acc (jobAt inp rk).pickup
          else acc) acc).length = d ∧
    ∀ i, aIdx (ranks.foldl
        (fun acc rk =>
          if (jobAt inp rk).type = JobType.single then
            aAdd acc (jobAt inp rk).pickup
          else acc) acc) i = aIdx acc i + spS inp i ranks := by
  induction ranks generalizing acc with
  | nil => simp [spS, hacc]
  | cons rk rest ih =>
    have hrk : rk < inp.jobs.length := hr rk (by simp)
    have hrest : ranksOk inp rest := fun x hx => hr x (by simp [hx])
    obtain ⟨hp, hd, _, _⟩ := wf_jobAt hwf hrk
    have hacc2 : (if (jobAt inp rk).type = JobType.single then
        aAdd acc (jobAt inp rk).pickup else acc).length = d := by
      by_cases hty : (jobAt inp rk).type = JobType.single <;>
        simp [hty, length_aAdd, hacc, hp]
    obtain ⟨hl, hv⟩ := ih hrest _ hacc2
    rw [List.foldl_cons]
    refine ⟨hl, fun i => ?_⟩
    rw [hv i]
    have hidx : aIdx (if (jobAt inp rk).type = JobType.single then
        aAdd acc (jobAt inp rk).pickup else acc) i = aIdx acc i + spC inp i rk := by
      by_cases hty : (jobAt inp rk).type = JobType.single <;>
        simp [hty, spC, aIdx_aAdd acc (jobAt inp rk).pickup (by rw [hacc, hp])]
    rw [hidx]
    simp only [spS, List.map_cons, List.sum_cons]
    ring

theorem sdSum_aux {inp : RRInput} {d : Nat} (hwf : WFJobs inp d)
    (ranks : List Nat) (hr : ranksOk inp ranks) (acc : Amount)
    (hacc : acc.length = d) :
    (ranks.foldl
        (fun acc rk =>
          if (jobAt inp rk).type = JobType.single then
            aAdd acc (jobAt inp rk).delivery
          else acc) acc).length = d ∧
    ∀ i, aIdx (ranks.foldl
        (fun acc rk =>
          if (jobAt inp rk).type = JobType.single then
            aAdd acc (jobAt inp rk).delivery
          else acc) acc) i = aIdx acc i + sdS inp i ranks := by
  induction ranks generalizing acc with
  | nil => simp [sdS, hacc]
  | cons rk rest ih =>
    have hrk : rk < inp.jobs.length := hr rk (by simp)
    have hrest : ranksOk inp rest := fun x hx => hr x (by simp [hx])
    obtain ⟨hp, hd, _, _⟩ := wf_jobAt hwf hrk
    have hacc2 : (if (jobAt inp rk).type = JobType.single then
        aAdd acc (jobAt inp rk).delivery else acc).length = d := by
      by_cases hty : (jobAt inp rk).type = JobType.single <;>
        simp [hty, length_aAdd, hacc, hd]
    obtain ⟨hl, hv⟩ := ih hrest _ hacc2
    rw [List.foldl_cons]
    refine ⟨hl, fun i => ?_⟩
    rw [hv i]
    have hidx : aIdx (if (jobAt inp rk).type = JobType.single then
        aAdd acc (jobAt inp rk).delivery else acc) i = aIdx acc i + sdC inp i rk := by
      by_cases hty : (jobAt inp rk).type = JobType.single <;>
        simp [hty, sdC, aIdx_aAdd acc (jobAt inp rk).delivery (by rw [hacc, hd])]
    rw [hidx]
    simp only [sdS, List.map_cons, List.sum_cons]
    ring

theorem pdSum_aux {inp : RRInput} {d : Nat} (hwf : WFJobs inp d)
    (ranks : List Nat) (hr : ranksOk inp ranks) (acc : Amount)
    (hacc : acc.length = d) :
    (ranks.foldl
        (fun acc rk =>
          match (jobAt inp rk).type with
          | JobType.pickup => aAdd acc (jobAt inp rk).pickup
          | JobType.delivery => aSub acc (jobAt inp rk).delivery
          | JobType.single => acc) acc).length = d ∧
    ∀ i, aIdx (ranks.foldl
        (fun acc rk =>
          match (jobAt inp rk).type with
          | JobType.pickup => aAdd acc (jobAt inp rk).pickup
          | JobType.delivery => aSub acc (jobAt inp rk).delivery
          | JobType.single => acc) acc) i = aIdx acc i + pdS inp i ranks := by
  induction ranks generalizing acc with
  | nil => simp [pdS, hacc]
  | cons rk rest ih =>
    have hrk : rk < inp.jobs.length := hr rk (by simp)
    have hrest : ranksOk inp rest := fun x hx => hr x (by simp [hx])
    obtain ⟨hp, hd, _, _⟩ := wf_jobAt hwf hrk
    have hacc2 : (match (jobAt inp rk).type with
        | JobType.pickup => aAdd acc (jobAt inp rk).pickup
        | JobType.delivery => aSub acc (jobAt inp rk).delivery
        | JobType.single => acc).length = d := by
      rcases hty : (jobAt inp rk).type
      · simpa [hty] using hacc
      · simp [hty, length_aAdd, hacc, hp]
      · simp [hty, length_aSub, hacc, hd]
    obtain ⟨hl, hv⟩ := ih hrest _ hacc2
    rw [List.foldl_cons]
    refine ⟨hl, fun i => ?_⟩
    rw [hv i]
    have hidx : aIdx (match (jobAt inp rk).type with
        | JobType.pickup => aAdd acc (jobAt inp rk).pickup
        | JobType.delivery => aSub acc (jobAt inp rk).delivery
        | JobType.single => acc) i = aIdx acc i + pdC inp i rk := by
      rcases hty : (jobAt inp rk).type
      · simp [hty, pdC]
      · simp [hty, pdC, aIdx_aAdd acc (jobAt inp rk).pickup (by rw [hacc, hp])]
      · simp [hty, pdC, aIdx_aSub acc (jobAt inp rk).delivery (by rw [hacc, hd])]
        ring
    rw [hidx]
    simp only [pdS, List.map_cons, List.sum_cons]
    ring

theorem spSum_length {inp : RRInput} {d : Nat} (hwf : WFJobs inp d)
    {ranks : List Nat} (hr : ranksOk inp ranks) :
    (spSum inp d ranks).length = d :=
  (spSum_aux hwf ranks hr (aZero d) (length_aZero d)).1

theorem aIdx_spSum {inp : RRInput} {d : Nat} (hwf : WFJobs inp d)
    {ranks : List Nat} (hr : ranksOk inp ranks) (i : Nat) :
    aIdx (spSum inp d ranks) i = spS inp i ranks := by
  have := (spSum_aux hwf ranks hr (aZero d) (length_aZero d)).2 i
  simpa [spSum, aIdx_aZero] using this

theorem sdSum_length {inp : RRInput} {d : Nat} (hwf : WFJobs inp d)
    {ranks : List Nat} (hr : ranksOk inp ranks) :
    (sdSum inp d ranks).length = d :=
  (sdSum_aux hwf ranks hr (aZero d) (length_aZero d)).1

theorem aIdx_sdSum {inp : RRInput} {d : Nat} (hwf : WFJobs inp d)
    {ranks : List Nat} (hr : ranksOk inp ranks) (i : Nat) :
    aIdx (sdSum inp d ranks) i = sdS inp i ranks := by
  have := (sdSum_aux hwf ranks hr (aZero d) (length_aZero d)).2 i
  simpa [sdSum, aIdx_aZero] using this

theorem pdSum_length {inp : RRInput} {d : Nat} (hwf : WFJobs inp d)
    {ranks : List Nat} (hr : ranksOk inp ranks) :
    (pdSum inp d ranks).length = d :=
  (pdSum_aux hwf ranks hr (aZero d) (length_aZero d)).1

theorem aIdx_pdSum {inp : RRInput} {d : Nat} (hwf : WFJobs inp d)
    {ranks : List Nat} (hr : ranksOk inp ranks) (i : Nat) :
    aIdx (pdSum inp d ranks) i = pdS inp i ranks := by
  have := (pdSum_aux hwf ranks hr (aZero d) (length_aZero d)).2 i
  simpa [pdSum, aIdx_aZero] using this

theorem spS_append (inp : RRInput) (i : Nat) (a b : List Nat) :
    spS inp i (a ++ b) = spS inp i a + spS inp i b := by
  simp [spS]

theorem sdS_append (inp : RRInput) (i : Nat) (a b : List Nat) :
    sdS inp i (a ++ b) = sdS inp i a + sdS inp i b := by
  simp [sdS]

theorem pdS_append (inp : RRInput) (i : Nat) (a b : List Nat) :
    pdS inp i (a ++ b) = pdS inp i a + pdS inp i b := by
  simp [pdS]

/-! ## Lemmas about the capacity-inclusion predicate (claim C1) -/

theorem ranksOk_take {inp : RRInput} {l : List Nat} (h : ranksOk inp l)
    (k : Nat) : ranksOk inp (l.take k) :=
  fun x hx => h x (List.mem_of_mem_take hx)

theorem ranksOk_drop {inp : RRInput} {l : List Nat} (h : ranksOk inp l)
    (k : Nat) : ranksOk inp (l.drop k) :=
  fun x hx => h x (List.mem_of_mem_drop hx)

theorem ranksOk_append {inp : RRInput} {a b : List Nat} (ha : ranksOk inp a)
    (hb : ranksOk inp b) : ranksOk inp (a ++ b) := by
  intro x hx
  rcases List.mem_append.mp hx with h | h
  · exact ha x h
  · exact hb x h

theorem capWalk_takes {inp : RRInput} {cap a : Amount} {l : List Nat}
    (h : capWalk inp cap a l = true) :
    ∀ k, k ≤ l.length → aLe (walkAcc inp a (l.take k)) cap = true := by
  induction l generalizing a with
  | nil =>
    intro k hk
    have hk0 : k = 0 := by simpa using hk
    subst hk0
    simpa [capWalk, walkAcc] using h
  | cons rk rest ih =>
    simp only [capWalk, Bool.and_eq_true] at h
    intro k hk
    cases k with
    | zero => simpa [walkAcc] using h.1
    | succ j =>
      have := ih h.2 j (by simpa using hk)
      simpa [walkAcc, List.foldl_cons] using this

theorem walkAcc_spec {inp : RRInput} {d : Nat} (hwf : WFJobs inp d)
    (l : List Nat) (hl : ranksOk inp l) (a : Amount) (ha : a.length = d) :
    (walkAcc inp a l).length = d ∧
    ∀ i, aIdx (walkAcc inp a l) i =
      aIdx a i + (spS inp i l + pdS inp i l - sdS inp i l) := by
  induction l generalizing a with
  | nil => simp [walkAcc, spS, pdS, sdS, ha]
  | cons rk rest ih =>
    have hrk : rk < inp.jobs.length := hl rk (by simp)
    have hrest : ranksOk inp rest := fun x hx => hl x (by simp [hx])
    obtain ⟨hp, hd, hpd, hdp⟩ := wf_jobAt hwf hrk
    have ha2 : (aSub (aAdd a (jobAt inp rk).pickup) (jobAt inp rk).delivery).length = d := by
      rw [length_aSub, length_aAdd, ha, hp, hd]
      simp
    obtain ⟨hl2, hv⟩ := ih hrest _ ha2
    refine ⟨by simpa [walkAcc] using hl2, fun i => ?_⟩
    have hstep : aIdx (aSub (aAdd a (jobAt inp rk).pickup) (jobAt inp rk).delivery) i =
        aIdx a i + (spC inp i rk + pdC inp i rk - sdC inp i rk) := by
      rw [aIdx_aSub _ _ (by rw [length_aAdd, ha, hp, hd]; simp),
        aIdx_aAdd _ _ (by rw [ha, hp])]
      rcases hty : (jobAt inp rk).type
      · simp [spC, pdC, sdC, hty]
        ring
      · rw [hpd hty]
        simp [spC, pdC, sdC, hty, aIdx_aZero]
      · rw [hdp hty]
        simp [spC, pdC, sdC, hty, aIdx_aZero]
        ring
    have := hv i
    simp only [walkAcc, List.foldl_cons] at *
    rw [this, hstep]
    simp only [spS, sdS, pdS, List.map_cons, List.sum_cons]
    ring

theorem getD_range_map {α : Type} (f : Nat → α) (n k : Nat) (dv : α)
    (h : k < n) : ((List.range n).map f).getD k dv = f k := by
  rw [List.getD_eq_getElem _ _ (by simpa using h)]
  simp

theorem loadAt_length {inp : RRInput} {d : Nat} (hwf : WFJobs inp d)
    {r : List Nat} (hr : ranksOk inp r) (s : Nat) :
    (loadAt inp d r s).length = d := by
  unfold loadAt
  split_ifs
  · exact spSum_length hwf hr
  · rw [length_aAdd, length_aAdd, spSum_length hwf (ranksOk_take hr s),
      pdSum_length hwf (ranksOk_take hr s), sdSum_length hwf (ranksOk_drop hr s)]
    simp

theorem loadAt_idx {inp : RRInput} {d : Nat} (hwf : WFJobs inp d)
    {r : List Nat} (hr : ranksOk inp r) {s : Nat} (hs : s ≤ r.length) (i : Nat) :
    aIdx (loadAt inp d r s) i =
      spS inp i (r.take s) + pdS inp i (r.take s) + sdS inp i (r.drop s) := by
  unfold loadAt
  rw [if_neg (by omega)]
  rw [aIdx_aAdd _ _ (by
      rw [length_aAdd, spSum_length hwf (ranksOk_take hr s),
        pdSum_length hwf (ranksOk_take hr s), sdSum_length hwf (ranksOk_drop hr s)]
      simp),
    aIdx_aAdd _ _ (by
      rw [spSum_length hwf (ranksOk_take hr s), pdSum_length hwf (ranksOk_take hr s)]),
    aIdx_spSum hwf (ranksOk_take hr s), aIdx_pdSum hwf (ranksOk_take hr s),
    aIdx_sdSum hwf (ranksOk_drop hr s)]

theorem inclusion_capWalk {inp : RRInput} {st : RawState} {delivery : Amount}
    {jobs : List Nat} {fr lr : Nat}
    (h : isValidAdditionForCapacityInclusion inp st delivery jobs fr lr = true) :
    capWalk inp st.capacity (inclusionStart inp st delivery fr lr) jobs = true := by
  unfold isValidAdditionForCapacityInclusion at h
  split_ifs at h
  exact h

theorem aAdd_aZero_left {d : Nat} (x : Amount) (h : x.length = d) :
    aAdd (aZero d) x = x := by
  apply amount_ext
  · rw [length_aAdd, length_aZero, h]
    simp
  · intro i
    rw [aIdx_aAdd _ _ (by rw [length_aZero, h]), aIdx_aZero]
    ring

theorem loadAt_zero {inp : RRInput} {st : RawState}
    (hwf : WFJobs inp st.capacity.length) {r : List Nat} (hr : ranksOk inp r) :
    loadAt inp st.capacity.length r 0 = sdSum inp st.capacity.length r := by
  unfold loadAt
  rw [if_neg (by omega)]
  simp only [List.take_zero, List.drop_zero]
  rw [show spSum inp st.capacity.length [] = aZero st.capacity.length from rfl,
    show pdSum inp st.capacity.length [] = aZero st.capacity.length from rfl,
    aAdd_aZero_left _ (length_aZero _),
    aAdd_aZero_left _ (sdSum_length hwf hr)]

theorem updateAmounts_ne_currentLoads {inp : RRInput} {st : RawState}
    (hne : ¬ st.route = []) :
    (updateAmounts inp st).currentLoads =
      (List.range (st.route.length + 2)).map
        (loadAt inp st.capacity.length st.route) := by
  simp only [updateAmounts]
  rw [if_neg (by simpa [List.isEmpty_iff] using hne)]

theorem updateAmounts_ne_bwdDeliveries {inp : RRInput} {st : RawState}
    (hne : ¬ st.route = []) :
    (updateAmounts inp st).bwdDeliveries =
      (List.range st.route.length).map
        (fun i => sdSum inp st.capacity.length (st.route.drop (i + 1))) := by
  simp only [updateAmounts]
  rw [if_neg (by simpa [List.isEmpty_iff] using hne)]

theorem updateAmounts_empty_currentLoads {inp : RRInput} {st : RawState}
    (hemp : st.route = []) :
    (updateAmounts inp st).currentLoads =
      List.replicate 2 (aZero st.capacity.length) := by
  simp only [updateAmounts]
  rw [if_pos (by simpa [List.isEmpty_iff] using hemp)]

theorem inclusionStart_spec {inp : RRInput} {st : RawState} {delivery : Amount}
    {jobs : List Nat} {fr lr : Nat}
    (hcons : st = updateAmounts inp st)
    (hwf : WFJobs inp st.capacity.length)
    (hroute : ranksOk inp st.route)
    (hjobs : ranksOk inp jobs)
    (hfl : fr ≤ lr) (hln : lr ≤ st.route.length)
    (hdel : delivery = sdSum inp st.capacity.length jobs) :
    (inclusionStart inp st delivery fr lr).length = st.capacity.length ∧
    ∀ i, aIdx (inclusionStart inp st delivery fr lr) i =
      sdS inp i jobs + (spS inp i (st.route.take fr) +
        pdS inp i (st.route.take fr) + sdS inp i (st.route.drop lr)) := by
  have hdlen : delivery.length = st.capacity.length := by
    rw [hdel]; exact sdSum_length hwf hjobs
  by_cases hemp : st.route = []
  · have hlr0 : lr = 0 := by
      rw [hemp] at hln; simpa using hln
    subst hlr0
    have hfr0 : fr = 0 := by omega
    subst hfr0
    have hform : inclusionStart inp st delivery 0 0 =
        aSub (aAdd delivery (aZero st.capacity.length))
          (aSub (aZero st.capacity.length) (aZero st.capacity.length)) := by
      simp [inclusionStart, hemp]
    rw [hform]
    have hzz : (aSub (aZero st.capacity.length) (aZero st.capacity.length)).length =
        st.capacity.length := by
      rw [length_aSub, length_aZero]; simp
    constructor
    · rw [length_aSub, length_aAdd, hdlen, length_aZero, hzz]
      simp
    · intro i
      rw [aIdx_aSub _ _ (by rw [length_aAdd, hdlen, length_aZero, hzz]; simp),
        aIdx_aAdd _ _ (by rw [hdlen, length_aZero]),
        aIdx_aSub _ _ (by simp [length_aZero]),
        aIdx_aZero, hdel, aIdx_sdSum hwf hjobs]
      simp [hemp, spS, pdS, sdS]
  · have hne : st.route.isEmpty = false := by
      simpa [List.isEmpty_iff] using hemp
    have hloads : st.currentLoads = (List.range (st.route.length + 2)).map
        (loadAt inp st.capacity.length st.route) := by
      conv_lhs => rw [hcons]
      exact updateAmounts_ne_currentLoads hemp
    have hbwd : st.bwdDeliveries = (List.range st.route.length).map
        (fun i => sdSum inp st.capacity.length (st.route.drop (i + 1))) := by
      conv_lhs => rw [hcons]
      exact updateAmounts_ne_bwdDeliveries hemp
    have hfrn : fr ≤ st.route.length := le_trans hfl hln
    have hcl_fr : st.currentLoads.getD fr (aZero st.capacity.length) =
        loadAt inp st.capacity.length st.route fr := by
      rw [hloads, getD_range_map _ (st.route.length + 2) fr _ (by omega)]
    have hfirstD : ∀ s, s ≤ st.route.length →
        (if s = 0 then st.currentLoads.getD 0 (aZero st.capacity.length)
         else st.bwdDeliveries.getD (s - 1) (aZero st.capacity.length)) =
        sdSum inp st.capacity.length (st.route.drop s) := by
      intro s hs
      by_cases hs0 : s = 0
      · subst hs0
        rw [if_pos rfl, hloads, getD_range_map _ (st.route.length + 2) 0 _ (by omega),
          loadAt_zero hwf hroute]
        simp
      · rw [if_neg hs0, hbwd, getD_range_map _ st.route.length (s - 1) _ (by omega),
          show s - 1 + 1 = s by omega]
    have hform : inclusionStart inp st delivery fr lr =
        aSub (aAdd delivery (st.currentLoads.getD fr (aZero st.capacity.length)))
          (aSub
            (if fr = 0 then st.currentLoads.getD 0 (aZero st.capacity.length)
             else st.bwdDeliveries.getD (fr - 1) (aZero st.capacity.length))
            (if lr = 0 then st.currentLoads.getD 0 (aZero st.capacity.length)
             else st.bwdDeliveries.getD (lr - 1) (aZero st.capacity.length))) := by
      simp only [inclusionStart, hne, Bool.false_eq_true, if_false]
    rw [hform, hfirstD fr hfrn, hfirstD lr hln, hcl_fr]
    have hlsub : (aSub (sdSum inp st.capacity.length (st.route.drop fr))
        (sdSum inp st.capacity.length (st.route.drop lr))).length =
        st.capacity.length := by
      rw [length_aSub, sdSum_length hwf (ranksOk_drop hroute fr),
        sdSum_length hwf (ranksOk_drop hroute lr)]
      simp
    constructor
    · rw [length_aSub, length_aAdd, hdlen, loadAt_length hwf hroute, hlsub]
      simp
    · intro i
      rw [aIdx_aSub _ _ (by
          rw [length_aAdd, hdlen, loadAt_length hwf hroute, hlsub]; simp),
        aIdx_aAdd _ _ (by rw [hdlen, loadAt_length hwf hroute]),
        aIdx_aSub _ _ (by
          rw [sdSum_length hwf (ranksOk_drop hroute fr),
            sdSum_length hwf (ranksOk_drop hroute lr)]),
        hdel, aIdx_sdSum hwf hjobs,
        aIdx_sdSum hwf (ranksOk_drop hroute fr),
        aIdx_sdSum hwf (ranksOk_drop hroute lr),
        loadAt_idx hwf hroute hfrn]
      ring

/-- Claim C1, amended: for a consistent RawRoute state with in-range
ranks (`first_rank ≤ last_rank ≤ route.size()`) and the `delivery`
argument equal to the single-job delivery sum of the inserted range,
`is_valid_addition_for_capacity_inclusion = true` implies that after the
corresponding `replace` every current load at the steps covered by the
edit (steps `first_rank` through `first_rank + inserted length`) is
within capacity.  The loads outside the edited span are not checked by
the predicate, so the original claim about `max_load()` fails (see the
counterexample). -/
theorem c1_thm (inp : RRInput) (st : RawState) (delivery : Amount)
    (jobs : List Nat) (fr lr : Nat)
    (hinv : RouteInvariants inp st)
    (hjobs : ranksOk inp jobs)
    (hfl : fr ≤ lr) (hln : lr ≤ st.route.length)
    (hdel : delivery = sdSum inp st.capacity.length jobs)
    (hvalid : isValidAdditionForCapacityInclusion inp st delivery jobs fr lr = true) :
    ∀ k, k ≤ jobs.length →
      aLe ((replaceOp inp st jobs fr lr).currentLoads.getD (fr + k)
        (aZero st.capacity.length)) st.capacity = true := by
  obtain ⟨hcons, hwf, hroute, _⟩ := hinv
  intro k hk
  have hwalk := inclusion_capWalk hvalid
  have hstart := inclusionStart_spec hcons hwf hroute hjobs hfl hln hdel
  have htake := capWalk_takes hwalk k hk
  have hwspec := walkAcc_spec hwf (jobs.take k) (ranksOk_take hjobs k)
    (inclusionStart inp st delivery fr lr) hstart.1
  have hA : (st.route.take fr).length = fr := by
    rw [List.length_take]; omega
  have hcapfacts : ∀ i, i < st.capacity.length →
      aIdx (inclusionStart inp st delivery fr lr) i +
        (spS inp i (jobs.take k) + pdS inp i (jobs.take k) -
          sdS inp i (jobs.take k)) ≤ aIdx st.capacity i := by
    intro i hi
    have h1 := (aLe_iff _ _ (by rw [hwspec.1])).mp htake i (by rw [hwspec.1]; exact hi)
    rw [hwspec.2 i] at h1
    exact h1
  by_cases hr2 : st.route.take fr ++ jobs ++ st.route.drop lr = []
  · -- degenerate case: the resulting route is empty
    have hparts := List.append_eq_nil.mp hr2
    have hparts2 := List.append_eq_nil.mp hparts.1
    have hfr0 : fr = 0 := by rw [hparts2.1] at hA; simpa using hA.symm
    have hjnil : jobs = [] := hparts2.2
    have hk0 : k = 0 := by
      rw [hjnil] at hk
      simpa using hk
    have hrep : (replaceOp inp st jobs fr lr).currentLoads =
        List.replicate 2 (aZero st.capacity.length) := by
      simp only [replaceOp]
      rw [updateAmounts_empty_currentLoads
        (show ({st with route := st.route.take fr ++ jobs ++ st.route.drop lr} :
          RawState).route = [] from hr2)]
    rw [hrep, hfr0, hk0]
    rw [show List.getD (List.replicate 2 (aZero st.capacity.length)) (0 + 0)
        (aZero st.capacity.length) = aZero st.capacity.length by simp]
    rw [aLe_iff _ _ (by rw [length_aZero])]
    intro i hi
    rw [aIdx_aZero]
    have := hcapfacts i (by rw [length_aZero] at hi; exact hi)
    rw [hstart.2 i] at this
    rw [hjnil, hfr0] at this
    simp only [List.take_nil, List.take_zero, spS, pdS, sdS, List.map_nil,
      List.sum_nil] at this
    rw [hparts.2] at this
    simp only [List.map_nil, List.sum_nil] at this
    omega
  · -- main case: the resulting route is non-empty
    have hloads2 : (replaceOp inp st jobs fr lr).currentLoads =
        (List.range ((st.route.take fr ++ jobs ++ st.route.drop lr).length + 2)).map
          (loadAt inp st.capacity.length
            (st.route.take fr ++ jobs ++ st.route.drop lr)) := by
      simp only [replaceOp]
      rw [updateAmounts_ne_currentLoads
        (show ¬ ({st with route := st.route.take fr ++ jobs ++ st.route.drop lr} :
          RawState).route = [] from hr2)]
    have hlen2 : fr + k ≤ (st.route.take fr ++ jobs ++ st.route.drop lr).length := by
      rw [List.length_append, List.length_append, hA]
      omega
    have hR2ok : ranksOk inp (st.route.take fr ++ jobs ++ st.route.drop lr) :=
      ranksOk_append (ranksOk_append (ranksOk_take hroute fr) hjobs)
        (ranksOk_drop hroute lr)
    rw [hloads2, getD_range_map _ _ (fr + k) _ (by omega)]
    rw [aLe_iff _ _ (loadAt_length hwf hR2ok _)]
    intro i hi
    rw [loadAt_length hwf hR2ok] at hi
    rw [loadAt_idx hwf hR2ok hlen2 i]
    have hlenAJ : (st.route.take fr ++ jobs).length = fr + jobs.length := by
      rw [List.length_append, hA]
    have htk : (st.route.take fr ++ jobs ++ st.route.drop lr).take (fr + k) =
        st.route.take fr ++ jobs.take k := by
      rw [List.take_append_eq_append_take, List.take_append_eq_append_take,
        hA, hlenAJ, show fr + k - fr = k from by omega,
        show fr + k - (fr + jobs.length) = 0 from by omega,
        List.take_zero, List.append_nil,
        List.take_of_length_le (show (st.route.take fr).length ≤ fr + k from by
          rw [hA]; omega)]
    have hdk : (st.route.take fr ++ jobs ++ st.route.drop lr).drop (fr + k) =
        jobs.drop k ++ st.route.drop lr := by
      rw [List.drop_append_eq_append_drop, List.drop_append_eq_append_drop,
        hA, hlenAJ, show fr + k - fr = k from by omega,
        show fr + k - (fr + jobs.length) = 0 from by omega,
        List.drop_zero,
        List.drop_eq_nil_of_le (show (st.route.take fr).length ≤ fr + k from by
          rw [hA]; omega),
        List.nil_append]
    rw [htk, hdk, spS_append, pdS_append, sdS_append]
    have := hcapfacts i hi
    rw [hstart.2 i] at this
    have hsplit : sdS inp i jobs =
        sdS inp i (jobs.take k) + sdS inp i (jobs.drop k) := by
      conv_lhs => rw [← List.take_append_drop k jobs]
      rw [sdS_append]
    omega

/-- Claim C1, counterexample: a consistent one-job route (single
delivery 9, capacity 10) satisfying the route invariants; appending a
single-delivery-5 job at the end (`first_rank = last_rank = 1`) passes
is_valid_addition_for_capacity_inclusion (the walk only checks the
loads from step 1 on), yet after the replace `max_load()` is 14 > 10:
the load at step 0 now carries both deliveries. -/
theorem c1_counterexample :
    RouteInvariants exInput1 exState1 ∧
    (1 : Nat) ≤ 1 ∧ 1 ≤ exState1.route.length + 1 ∧
    ([5] : Amount) = sdSum exInput1 exState1.capacity.length [1] ∧
    isValidAdditionForCapacityInclusion exInput1 exState1 [5] [1] 1 1 = true ∧
    aLe (maxLoad (replaceOp exInput1 exState1 [1] 1 1)) exState1.capacity = false := by
  refine ⟨by decide, by decide, by decide, by decide, by decide, by decide⟩

/-- Claim C1, witness: the amended theorem applied to a concrete
replacement of the whole one-job route by another job. -/
theorem c1_witness :
    RouteInvariants exInput1 exState1 ∧ ranksOk exInput1 [1] ∧
    (0 : Nat) ≤ 1 ∧ 1 ≤ exState1.route.length ∧
    ([5] : Amount) = sdSum exInput1 exState1.capacity.length [1] ∧
    isValidAdditionForCapacityInclusion exInput1 exState1 [5] [1] 0 1 = true ∧
    ∀ k, k ≤ [1].length →
      aLe ((replaceOp exInput1 exState1 [1] 0 1).currentLoads.getD (0 + k)
        (aZero exState1.capacity.length)) exState1.capacity = true :=
  ⟨by decide, by decide, by decide, by decide, by decide, by decide,
    c1_thm exInput1 exState1 [5] [1] 0 1 (by decide) (by decide) (by decide)
      (by decide) (by decide) (by decide)⟩

theorem updateAmounts_route (inp : RRInput) (st : RawState) :
    (updateAmounts inp st).route = st.route := by
  simp only [updateAmounts]
  split_ifs <;> rfl

theorem updateAmounts_capacity (inp : RRInput) (st : RawState) :
    (updateAmounts inp st).capacity = st.capacity := by
  simp only [updateAmounts]
  split_ifs <;> rfl

theorem updateAmounts_tagCounts (inp : RRInput) (st : RawState) :
    (updateAmounts inp st).exclusiveTagCounts = st.exclusiveTagCounts := by
  simp only [updateAmounts]
  split_ifs <;> rfl

theorem updateAmounts_tagLimits (inp : RRInput) (st : RawState) :
    (updateAmounts inp st).exclusiveTagLimits = st.exclusiveTagLimits := by
  simp only [updateAmounts]
  split_ifs <;> rfl

theorem updateAmounts_congr_ne (inp : RRInput) {s1 s2 : RawState}
    (hne : s1.route ≠ [])
    (h : s1.route = s2.route) (hc : s1.capacity = s2.capacity)
    (htc : s1.exclusiveTagCounts = s2.exclusiveTagCounts)
    (htl : s1.exclusiveTagLimits = s2.exclusiveTagLimits) :
    updateAmounts inp s1 = updateAmounts inp s2 := by
  cases s1
  cases s2
  simp only at h hc htc htl hne
  subst h hc htc htl
  simp only [updateAmounts]
  rw [if_neg (by simpa [List.isEmpty_iff] using hne)]
  rw [if_neg (by simpa [List.isEmpty_iff] using hne)]

theorem insert_take_drop (l : List Nat) (j : Nat) (r : Nat) (hr : r ≤ l.length) :
    (l.insertIdx r j).take r ++ (l.insertIdx r j).drop (r + 1) = l := by
  induction l generalizing r with
  | nil =>
    have h0 : r = 0 := by simpa using hr
    subst h0
    simp
  | cons x xs ih =>
    cases r with
    | zero => simp
    | succ m =>
      simp only [List.insertIdx_succ_cons, List.take_succ_cons,
        List.drop_succ_cons, List.cons_append]
      rw [ih m (by simpa using hr)]

/-- Claim C6, amended: on a consistent state with a NON-empty route,
`add(j, r)` followed by `remove(r, 1)` restores the complete route
state bit-for-bit.  When the route is empty the job sequence and all
load vectors are restored but both margins keep the values computed
for the intermediate one-job route, because update_amounts returns
early on an empty route before refreshing the margins (see the
counterexample). -/
theorem c6_thm (inp : RRInput) (st : RawState) (j r : Nat)
    (hcons : st = updateAmounts inp st)
    (hr : r ≤ st.route.length)
    (hne : st.route ≠ []) :
    removeOp inp (addOp inp st j r) r 1 = st := by
  have hr2 : (addOp inp st j r).route = st.route.insertIdx r j := by
    unfold addOp
    rw [updateAmounts_route]
  unfold removeOp
  rw [hr2, insert_take_drop st.route j r hr]
  have hcap : (addOp inp st j r).capacity = st.capacity := by
    unfold addOp
    rw [updateAmounts_capacity]
  have htc : (addOp inp st j r).exclusiveTagCounts = st.exclusiveTagCounts := by
    unfold addOp
    rw [updateAmounts_tagCounts]
  have htl : (addOp inp st j r).exclusiveTagLimits = st.exclusiveTagLimits := by
    unfold addOp
    rw [updateAmounts_tagLimits]
  exact (@updateAmounts_congr_ne inp
    { addOp inp st j r with route := st.route } st hne rfl hcap htc htl).trans
    hcons.symm

/-- Claim C6, witness: the amended theorem applied to the concrete
non-empty one-job state. -/
theorem c6_witness :
    exState1 = updateAmounts exInput1 exState1 ∧
    (1 : Nat) ≤ exState1.route.length ∧ exState1.route ≠ [] ∧
    removeOp exInput1 (addOp exInput1 exState1 1 1) 1 1 = exState1 :=
  ⟨by decide, by decide, by decide,
    c6_thm exInput1 exState1 1 1 (by decide) (by decide) (by decide)⟩

/-- Claim C6, counterexample: starting from a freshly constructed empty
route (both margins = capacity = [10]), add(job 0, 0) then remove(0, 1)
restores the job sequence but leaves delivery_margin = [1] (the value
computed for the one-job route), so the state is not restored
bit-for-bit. -/
theorem c6_counterexample :
    (0 : Nat) ≤ (mkState [10] [] []).route.length ∧
    (removeOp exInput1 (addOp exInput1 (mkState [10] [] []) 0 0) 0 1).route =
      (mkState [10] [] []).route ∧
    (removeOp exInput1 (addOp exInput1 (mkState [10] [] []) 0 0) 0 1).deliveryMargin
      = [1] ∧
    (mkState [10] [] []).deliveryMargin = [10] ∧
    removeOp exInput1 (addOp exInput1 (mkState [10] [] []) 0 0) 0 1 ≠
      mkState [10] [] [] := by
  refine ⟨by decide, by decide, by decide, by decide, by decide⟩

/-- Claim C3: evaluation at the failing input.  Removing the only job
of a consistent route leaves the route empty with current_loads[0] = 0,
but update_amounts returns early on the empty route (raw_route.cpp line
54) before the (unreachable) margin refresh at lines 133-143, so
delivery_margin keeps the stale value [1] instead of capacity [10]:
the claimed invariant `delivery_margin = capacity - current_loads[0]`
(= capacity on an empty route) fails, although the dead code at lines
133-135 shows it was intended to hold. -/
theorem c3_thm :
    (removeOp exInput1 exState1 0 1).route = [] ∧
    (removeOp exInput1 exState1 0 1).currentLoads.getD 0 (aZero 1) = aZero 1 ∧
    (removeOp exInput1 exState1 0 1).deliveryMargin = [1] ∧
    aSub (removeOp exInput1 exState1 0 1).capacity
      ((removeOp exInput1 exState1 0 1).currentLoads.getD 0 (aZero 1)) = [10] ∧
    (removeOp exInput1 exState1 0 1).deliveryMargin ≠
      (removeOp exInput1 exState1 0 1).capacity := by
  refine ⟨by decide, by decide, by decide, by decide, by decide⟩

theorem routeTagCount_append (inp : RRInput) (a b : List Nat) (t : Nat) :
    routeTagCount inp (a ++ b) t = routeTagCount inp a t + routeTagCount inp b t := by
  simp [routeTagCount]

theorem flat_tags_count (inp : RRInput) (jobs : List Nat) (t : Nat) :
    (insertedTagIds inp jobs).count t = routeTagCount inp jobs t := by
  induction jobs with
  | nil => simp [routeTagCount, insertedTagIds]
  | cons rk rest ih =>
    simp only [insertedTagIds, List.foldr_cons, List.count_append, routeTagCount,
      List.map_cons, List.sum_cons] at *
    rw [ih]

theorem route_decompose (r : List Nat) (fr lr : Nat) (hfl : fr ≤ lr)
    (hln : lr ≤ r.length) :
    r = r.take fr ++ (r.drop fr).take (lr - fr) ++ r.drop lr := by
  have h3 : (r.drop fr).drop (lr - fr) = r.drop lr := by
    rw [List.drop_drop, show fr + (lr - fr) = lr from by omega]
  calc r = r.take fr ++ r.drop fr := (List.take_append_drop fr r).symm
    _ = r.take fr ++
        ((r.drop fr).take (lr - fr) ++ (r.drop fr).drop (lr - fr)) := by
        rw [List.take_append_drop (lr - fr) (r.drop fr)]
    _ = r.take fr ++ (r.drop fr).take (lr - fr) ++ r.drop lr := by
        rw [h3, List.append_assoc]

theorem valid_tagsOk {inp : RRInput} {st : RawState} {jobs : List Nat}
    {fr lr : Nat}
    (h : rawIsValidAdditionForTwRange inp st jobs fr lr = true) :
    exclusiveTagsOk inp st jobs fr lr = true := by
  unfold rawIsValidAdditionForTwRange at h
  split_ifs at h with h1 h2
  exact h1

/-- Claim C5, amended: for a RawRoute state whose exclusive-tag counts
reflect the current route and are within their limits, and in-range
ranks, if the range variant of is_valid_addition_for_tw returns true
then after the corresponding replace the count of every exclusive tag
on the route is within its limit.  (Without the within-limits premise a
tag already over its limit and untouched by the edit stays over it: the
check only inspects tags of the inserted range; see the
counterexample.) -/
theorem c5_thm (inp : RRInput) (st : RawState) (jobs : List Nat) (fr lr : Nat)
    (hclen : st.exclusiveTagCounts.length = st.exclusiveTagLimits.length)
    (hreflect : ∀ t, t < st.exclusiveTagLimits.length →
      st.exclusiveTagCounts.getD t 0 = routeTagCount inp st.route t)
    (hwithin : ∀ t, t < st.exclusiveTagLimits.length →
      st.exclusiveTagCounts.getD t 0 ≤ st.exclusiveTagLimits.getD t 0)
    (hfl : fr ≤ lr) (hln : lr ≤ st.route.length)
    (hvalid : rawIsValidAdditionForTwRange inp st jobs fr lr = true) :
    ∀ t, t < st.exclusiveTagLimits.length →
      routeTagCount inp (st.route.take fr ++ jobs ++ st.route.drop lr) t ≤
        st.exclusiveTagLimits.getD t 0 := by
  intro t ht
  have htagsOk := valid_tagsOk hvalid
  have hmid : routeTagCount inp st.route t =
      routeTagCount inp (st.route.take fr) t +
      routeTagCount inp ((st.route.drop fr).take (lr - fr)) t +
      routeTagCount inp (st.route.drop lr) t := by
    conv_lhs => rw [route_decompose st.route fr lr hfl hln]
    rw [routeTagCount_append, routeTagCount_append]
  rw [routeTagCount_append, routeTagCount_append]
  unfold exclusiveTagsOk at htagsOk
  by_cases hempty : st.exclusiveTagCounts.isEmpty
  · exfalso
    rw [List.isEmpty_iff] at hempty
    rw [hempty] at hclen
    simp only [List.length_nil] at hclen
    omega
  · rw [if_neg hempty] at htagsOk
    by_cases hins : (insertedTagIds inp jobs).isEmpty
    · have hjz : routeTagCount inp jobs t = 0 := by
        rw [← flat_tags_count]
        rw [List.isEmpty_iff] at hins
        rw [hins]
        rfl
      have h1 := hreflect t ht
      have h2 := hwithin t ht
      omega
    · rw [if_neg hins, List.all_eq_true] at htagsOk
      by_cases hmem : t ∈ insertedTagIds inp jobs
      · have hch := htagsOk t (List.mem_dedup.mpr hmem)
        simp only [tagCheckOne] at hch
        split_ifs at hch with hcl
        rw [decide_eq_true_eq] at hch
        rw [show min st.route.length lr = lr from by omega,
          show min fr lr = fr from by omega] at hch
        rw [flat_tags_count] at hch
        have h1 := hreflect t ht
        rw [h1, hmid] at hch
        omega
      · have hjz : routeTagCount inp jobs t = 0 := by
          rw [← flat_tags_count]
          exact List.count_eq_zero.mpr hmem
        have h1 := hreflect t ht
        have h2 := hwithin t ht
        omega

/-- Claim C5, counterexample: a consistent state whose tag counts [2]
reflect a route carrying tag 0 twice against limit [1]; appending an
untagged job (`first_rank = last_rank = 2`) passes the range variant of
is_valid_addition_for_tw (it only inspects tags of the inserted range),
yet after the replace tag 0 still occurs twice, above its limit, so the
claim as stated fails without a premise that the counts are within the
limits beforehand. -/
theorem c5_counterexample :
    exStateTags.exclusiveTagCounts.length = exStateTags.exclusiveTagLimits.length ∧
    (∀ t, t < exStateTags.exclusiveTagLimits.length →
      exStateTags.exclusiveTagCounts.getD t 0 =
        routeTagCount exInputTags exStateTags.route t) ∧
    (2 : Nat) ≤ 2 ∧ 2 ≤ exStateTags.route.length ∧
    rawIsValidAdditionForTwRange exInputTags exStateTags [2] 2 2 = true ∧
    ¬ (routeTagCount exInputTags
        (exStateTags.route.take 2 ++ [2] ++ exStateTags.route.drop 2) 0 ≤
      exStateTags.exclusiveTagLimits.getD 0 0) := by
  refine ⟨by decide, by decide, by decide, by decide, by decide, by decide⟩

/-- Claim C5, witness: the amended theorem applied to the replacement
of a tagged job by another job with the same tag. -/
theorem c5_witness :
    exStateTags1.exclusiveTagCounts.length = exStateTags1.exclusiveTagLimits.length ∧
    (∀ t, t < exStateTags1.exclusiveTagLimits.length →
      exStateTags1.exclusiveTagCounts.getD t 0 =
        routeTagCount exInputTags exStateTags1.route t) ∧
    (∀ t, t < exStateTags1.exclusiveTagLimits.length →
      exStateTags1.exclusiveTagCounts.getD t 0 ≤
        exStateTags1.exclusiveTagLimits.getD t 0) ∧
    (0 : Nat) ≤ 1 ∧ 1 ≤ exStateTags1.route.length ∧
    rawIsValidAdditionForTwRange exInputTags exStateTags1 [3] 0 1 = true ∧
    ∀ t, t < exStateTags1.exclusiveTagLimits.length →
      routeTagCount exInputTags
        (exStateTags1.route.take 0 ++ [3] ++ exStateTags1.route.drop 1) t ≤
        exStateTags1.exclusiveTagLimits.getD t 0 :=
  ⟨by decide, by decide, by decide, by decide, by decide, by decide,
    c5_thm exInputTags exStateTags1 [3] 0 1 (by decide) (by decide) (by decide)
      (by decide) (by decide) (by decide)⟩

/-- Claim C7, counterexample: with `a = {0, 5, 0}` and `b = {0, 3, 0}`
the code has `a <= b` (it only compares costs) although `a` is neither
lexicographically smaller than `b` nor equal to it, refuting the claim
that `operator<=` agrees with the lexicographic order. -/
theorem c7_counterexample :
    evalLe ⟨0, 5, 0⟩ ⟨0, 3, 0⟩ = true ∧
    evalLexLe ⟨0, 5, 0⟩ ⟨0, 3, 0⟩ = false := by
  constructor <;> rfl

/-- Claim C7, amended: `operator<` on Eval is lexicographic on the
`(cost, duration, distance)` triple, while `operator<=` compares the
`cost` components only. -/
theorem c7_thm (a b : Eval) :
    (evalLt a b = true ↔
      a.cost < b.cost ∨ (a.cost = b.cost ∧ (a.duration < b.duration ∨
        (a.duration = b.duration ∧ a.distance < b.distance)))) ∧
    (evalLe a b = true ↔ a.cost ≤ b.cost) := by
  constructor
  · simp only [evalLt, ne_eq]
    split_ifs with h1 h2 <;> simp only [decide_eq_true_eq] <;> omega
  · simp [evalLe]

/-- Claim C8, counterexample: `saturating_sub(0, i64Min)` wraps to
`i64Min` instead of clamping the exact value `2^63` to `i64Max`, and
`saturating_neg(i64Max)` yields `i64Min` although `-i64Max` is
representable, refuting the claim that all three helpers clamp for every
input (including `y = min` for subtraction and `x = max` for negation). -/
theorem c8_counterexample :
    saturating_sub 0 i64Min = i64Min ∧ clamp64 (0 - i64Min) = i64Max ∧
    saturating_neg i64Max = i64Min ∧ clamp64 (-i64Max) = -i64Max ∧
    i64Min ≠ i64Max ∧ i64Min ≠ -i64Max := by
  refine ⟨by decide, by decide, by decide, by decide, by decide, by decide⟩

/-- Claim C8, amended: over in-range 64-bit values, `saturating_add`
always equals the exact sum clamped to `[i64Min, i64Max]`;
`saturating_sub` equals the clamped difference whenever `y ≠ i64Min`,
while for `y = i64Min` the negation cast wraps and the result is
`saturating_add x i64Min`; `saturating_neg` equals the clamped negation
whenever `x ≠ i64Max` (including `x = i64Min`, which clamps to
`i64Max`), while `x = i64Max` is sent to `i64Min`, swapping the two
sentinels. -/
theorem c8_thm (x y : Int) (hx0 : i64Min ≤ x) (hx1 : x ≤ i64Max)
    (hy0 : i64Min ≤ y) (hy1 : y ≤ i64Max) :
    saturating_add x y = clamp64 (x + y) ∧
    (y ≠ i64Min → saturating_sub x y = clamp64 (x - y)) ∧
    saturating_sub x i64Min = saturating_add x i64Min ∧
    (x ≠ i64Max → saturating_neg x = clamp64 (-x)) ∧
    saturating_neg i64Max = i64Min := by
  refine ⟨?_, fun hy => ?_, ?_, fun hx => ?_, by decide⟩
  · simp only [saturating_add, clamp64, i64Min, i64Max] at *
    split_ifs <;> omega
  · simp only [saturating_add, saturating_sub, clamp64, wrap64, i64Min,
      i64Max] at *
    split_ifs <;> omega
  · simp only [saturating_add, saturating_sub, wrap64, i64Min, i64Max] at *
    split_ifs <;> omega
  · simp only [saturating_neg, clamp64, i64Min, i64Max] at *
    split_ifs <;> omega

/-- Claim C8, witness: the amended statement applied at `x = 5`,
`y = 7`. -/
theorem c8_witness :
    i64Min ≤ (5 : Int) ∧ (5 : Int) ≤ i64Max ∧ i64Min ≤ (7 : Int) ∧
    (7 : Int) ≤ i64Max ∧
    (saturating_add 5 7 = clamp64 (5 + 7) ∧
      ((7 : Int) ≠ i64Min → saturating_sub 5 7 = clamp64 (5 - 7)) ∧
      saturating_sub 5 i64Min = saturating_add 5 i64Min ∧
      ((5 : Int) ≠ i64Max → saturating_neg 5 = clamp64 (-5)) ∧
      saturating_neg i64Max = i64Min) :=
  ⟨by decide, by decide, by decide, by decide,
    c8_thm 5 7 (by decide) (by decide) (by decide) (by decide)⟩

theorem twInitSection_acceptAll {inp : TWInput} {st : TWState}
    {jobs : List Nat} {fr lr : Nat} (hlr : lr < st.route.length) :
    twInitSection inp st jobs fr lr ≠ TWInit.acceptAll := by
  simp only [twInitSection]
  split_ifs <;> simp_all

/-- Claim C10: with malformed rank arguments (first_rank or last_rank
beyond the route size, or first_rank > last_rank) the TW range
predicate returns false immediately, before reading any state vector,
for every instantiation of the walk suffix. -/
theorem c10_thm (rest : TWRest) (inp : TWInput) (st : TWState)
    (delivery : Amount) (jobs : List Nat) (fr lr : Nat) (cml : Bool)
    (h : fr > st.route.length ∨ lr > st.route.length ∨ fr > lr) :
    twIsValidAdditionForTw rest inp st delivery jobs fr lr cml = false := by
  unfold twIsValidAdditionForTw
  rw [if_pos h]

/-- Claim C4: under `pinned_soft_timing = true` with a zero violation
budget, the TW range predicate rejects every edit whose insertion point
is immediately before a pinned step (`last_rank < route.size()` with
`route[last_rank]` pinned), and every prepend (`first_rank = 0`) into a
non-empty route containing a pinned job — for every walk suffix, job
range and other arguments. -/
theorem c4_thm (rest : TWRest) (inp : TWInput) (st : TWState)
    (delivery : Amount) (jobs : List Nat) (fr lr : Nat) (cml : Bool)
    (hsoft : inp.pinnedSoftTiming = true)
    (hbud : inp.pinnedViolationBudget = 0)
    (hcase :
      (lr < st.route.length ∧
        (twJobAt inp (st.route.getD lr 0)).pinned = true) ∨
      (fr = 0 ∧ st.route ≠ [] ∧
        st.route.any (fun jr => (twJobAt inp jr).pinned) = true)) :
    twIsValidAdditionForTw rest inp st delivery jobs fr lr cml = false := by
  unfold twIsValidAdditionForTw
  rcases hcase with ⟨hlr, hpin⟩ | ⟨hfr, hne, hany⟩
  · split_ifs with h1 h2 h3
    · rfl
    · rfl
    · rcases hinit : twInitSection inp st jobs fr lr with _ | _ | ⟨cur, next⟩
      · rfl
      · exact absurd hinit (twInitSection_acceptAll hlr)
      · rfl
    · exact absurd ⟨hsoft, hbud, hlr, hpin⟩ h3
  · split_ifs with h1 h2 h3
    · rfl
    · rfl
    · exact absurd ⟨hsoft, hbud, hfr, hne, hany⟩ h2
    · exact absurd ⟨hsoft, hbud, hfr, hne, hany⟩ h2

/-- Claim C4 holds at a concrete input: inserting at rank 0 right
before the pinned job of `TW.exTWState` is rejected. -/
theorem c4_witness :
    twIsValidAdditionForTw (fun _ _ _ _ => true) TW.exTWInput TW.exTWState
      [] [] 0 0 true = false :=
  c4_thm (fun _ _ _ _ => true) TW.exTWInput TW.exTWState [] [] 0 0 true
    rfl rfl (Or.inl ⟨by decide, by decide⟩)

/-- Claim C10 holds at a concrete input: a first rank beyond the route
size is rejected. -/
theorem c10_witness :
    twIsValidAdditionForTw (fun _ _ _ _ => true) TW.exTWInput TW.exTWState
      [] [] 2 3 true = false :=
  c10_thm (fun _ _ _ _ => true) TW.exTWInput TW.exTWState [] [] 2 3 true
    (Or.inl (by decide))

theorem removalCand_bestOk (inp : BRInput) (ext : BRExt) (vIdx : Nat)
    (ranks : List Nat) (curGap : Int) (best : RemovalBest) (p : Nat)
    (h : BestOk inp best) :
    BestOk inp (removalCand inp ext vIdx ranks curGap best p) := by
  intro f s hfs
  simp only [removalCand] at hfs
  split_ifs at hfs with h1 h2 h3 h4 h5 h6
  · exact h f s hfs
  · simp only [Option.some.injEq, Prod.mk.injEq] at hfs
    obtain ⟨hf, hs⟩ := hfs
    subst hf
    exact ⟨by simpa using h1, Or.inl ⟨hs.symm, h2⟩⟩
  · exact h f s hfs
  · exact h f s hfs
  · simp only [Option.some.injEq, Prod.mk.injEq] at hfs
    obtain ⟨hf, hs⟩ := hfs
    subst hf
    rcases not_or.mp h5 with ⟨hn, hp5⟩
    exact ⟨by simpa using h1, Or.inr ⟨hs.symm, h4, by simpa using hp5⟩⟩
  · exact h f s hfs
  · exact h f s hfs

theorem foldl_removalCand_bestOk (inp : BRInput) (ext : BRExt) (vIdx : Nat)
    (ranks : List Nat) (curGap : Int) (l : List Nat) :
    ∀ best : RemovalBest, BestOk inp best →
      BestOk inp (l.foldl (removalCand inp ext vIdx ranks curGap) best) := by
  induction l with
  | nil => intro best h; exact h
  | cons p l ih =>
    intro best h
    exact ih _ (removalCand_bestOk inp ext vIdx ranks curGap best p h)

theorem removalScan_bestOk (inp : BRInput) (ext : BRExt) (vIdx : Nat)
    (ranks : List Nat) (curGap : Int) :
    BestOk inp (removalScan inp ext vIdx ranks curGap) :=
  foldl_removalCand_bestOk inp ext vIdx ranks curGap _ _
    (fun f s hfs => nomatch hfs)

theorem removedOk_append (inp : BRInput) :
    ∀ (a b : List Nat), removedOk inp a = true → removedOk inp b = true →
      removedOk inp (a ++ b) = true
  | [], _, _, hb => hb
  | r :: rest, b, ha, hb => by
    rw [List.cons_append, removedOk.eq_def]
    rw [removedOk.eq_def] at ha
    dsimp only at ha ⊢
    split_ifs at ha ⊢ with h1 h2 h3
    · exact removedOk_append inp rest b ha hb
    · cases rest with
      | nil => simp at ha
      | cons d rest2 =>
        simp only [List.cons_append, Bool.and_eq_true] at ha ⊢
        exact ⟨ha.1, removedOk_append inp rest2 b ha.2 hb⟩

theorem removalLoop_removedOk (inp : BRInput) (ext : BRExt) (vIdx : Nat) :
    ∀ (fuel : Nat) (ranks removed : List Nat),
      removedOk inp removed = true →
      removedOk inp (removalLoop inp ext vIdx fuel ranks removed).2 = true := by
  intro fuel
  induction fuel with
  | zero => intro ranks removed h; simpa [removalLoop] using h
  | succ fuel ih =>
    intro ranks removed h
    simp only [removalLoop]
    split_ifs with h1 h2 h3
    · exact h
    · exact h
    · exact h
    · rcases not_or.mp h3 with ⟨hd, hn⟩
      obtain ⟨⟨f, s⟩, hbp⟩ :=
        Option.ne_none_iff_exists'.mp hn
      rw [hbp]
      simp only [Option.getD_some]
      have hg : GoodPair inp f s :=
        removalScan_bestOk inp ext vIdx ranks
          (budgetSumFromRanks inp ranks - ext.totalCost vIdx ranks) f s hbp
      rcases hg with ⟨hp, ⟨hsn, hty⟩ | ⟨hsd, hty, hp2⟩⟩
      · subst hsn
        exact ih _ _ (removedOk_append inp removed [f] h
          (by simp [removedOk, hp, hty]))
      · subst hsd
        exact ih _ _ (removedOk_append inp removed [f, f + 1] h
          (by simp [removedOk, hp, hty, hp2]))

/-- Claim C9: in the greedy removal phase of `repair_budget`, the
removed-ranks list only ever holds non-pinned jobs, grouped as lone
single jobs or as a non-pinned pickup immediately followed by its
matching delivery rank, itself non-pinned — for every iteration of the
loop and every instantiation of the abstracted cost externals. -/
theorem c9_thm (inp : BRInput) (ext : BRExt) (vIdx : Nat)
    (ranks : List Nat) :
    removedOk inp (removalPhase inp ext vIdx ranks).2 = true :=
  removalLoop_removedOk inp ext vIdx (ranks.length + 1) ranks [] rfl

/-- Claim C2 (code bug): the publish guard of `repair_budget` compares
route counts only, so whenever the per-route loop keeps as many routes
as it was given — even when a kept route was modified by a densify or
removal commit — the function returns the solution unchanged and the
modifications are discarded, contradicting the specified post-pass
bookkeeping for modified routes. -/
theorem c2_thm (inp : BRInput) (ext : BRExt) (sol : BRSolution)
    (h : (sol.routes.foldl (processRoute inp ext) ⟨[], [], []⟩).kept.length =
      sol.routes.length) :
    repair_budget inp ext sol = sol := by
  simp only [repair_budget]
  rw [if_neg (fun hc => hc h)]

/-- Claim C2 at the concrete example: the densify scan commits a
modified route (the kept route differs from the original and an
inserted id is marked for removal from unassigned), no route is
dropped, and `repair_budget` nevertheless returns the solution
unchanged. -/
theorem c2_witness :
    (BR.exBRSol.routes.foldl (processRoute BR.exBRInput BR.exBRExt)
        ⟨[], [], []⟩).kept ≠ BR.exBRSol.routes ∧
    (BR.exBRSol.routes.foldl (processRoute BR.exBRInput BR.exBRExt)
        ⟨[], [], []⟩).removeIds ≠ [] ∧
    repair_budget BR.exBRInput BR.exBRExt BR.exBRSol = BR.exBRSol :=
  ⟨by decide, by decide,
    c2_thm BR.exBRInput BR.exBRExt BR.exBRSol (by decide)⟩

end Vroom
